import Mathlib

/-!
# Verification of the codeIt extension's instruction-to-edit pipeline

Shallow embedding of the core pipeline of the `codeit-extension` repository:
file resolution (`SmartFileResolver`), response parsing (`OutputParser`,
`SmartAgent.parseFileChanges`), patch application (`PatchEngine`,
`SmartAgent.applyFileChanges`) and project indexing (`ProjectIndexer`).

Strings are modelled as `List Char`; JavaScript numbers used for scores and
confidences are modelled as `ℚ`.  Fallible operations are modelled with
`Option`.  Definitions keep the source names.
-/

/-- Strings of the TypeScript source are modelled as lists of characters. -/
abbrev Str := List Char

/-- JavaScript whitespace test, restricted to the ASCII whitespace that the
source manipulates (space, tab, newline, carriage return, form feed,
vertical tab). -/
def isWS (c : Char) : Bool :=
  c = ' ' || c = '\t' || c = '\n' || c = '\r' || c = '\x0c' || c = '\x0b'

/-- `\w` character class of JavaScript regexes (ASCII letters, digits, `_`). -/
def isWordChar (c : Char) : Bool :=
  ('a' ≤ c && c ≤ 'z') || ('A' ≤ c && c ≤ 'Z') || ('0' ≤ c && c ≤ '9') || c = '_'

/-- ASCII digit test (`\d`). -/
def isDigitCh (c : Char) : Bool := '0' ≤ c && c ≤ '9'

/-- `String.prototype.toLowerCase`, on the ASCII range. -/
def lowerStr (s : Str) : Str := s.map Char.toLower

/-- Does `s` start with the sequence `p`?  (Model of `startsWith`.) -/
def strStarts : Str → Str → Bool
  | [], _ => true
  | _ :: _, [] => false
  | p :: ps, c :: cs => p = c && strStarts ps cs

/-- Does `needle` occur as a contiguous substring of `hay`?
(Model of `String.prototype.includes`.) -/
def containsStr (needle hay : Str) : Bool :=
  match hay with
  | [] => strStarts needle []
  | _ :: cs => strStarts needle hay || containsStr needle cs

/-- `String.prototype.trim`. -/
def trimStr (s : Str) : Str :=
  ((s.dropWhile isWS).reverse.dropWhile isWS).reverse

/-- Split a string at `'\n'` (model of `split('\n')`). -/
def splitLines (s : Str) : List Str :=
  match s with
  | [] => [[]]
  | c :: cs =>
    let rest := splitLines cs
    if c = '\n' then [] :: rest
    else match rest with
      | [] => [[c]]
      | l :: ls => (c :: l) :: ls

/-- Join lines with `'\n'` (model of `join('\n')`). -/
def joinLines : List Str → Str
  | [] => []
  | [l] => l
  | l :: ls => l ++ '\n' :: joinLines ls

theorem strStarts_iff (p s : Str) : strStarts p s = true ↔ ∃ t, s = p ++ t := by
  induction p generalizing s with
  | nil => simp [strStarts]
  | cons a ps ih =>
    cases s with
    | nil => simp [strStarts]
    | cons c cs =>
      simp only [strStarts, Bool.and_eq_true, decide_eq_true_eq, ih]
      constructor
      · rintro ⟨rfl, t, rfl⟩; exact ⟨t, rfl⟩
      · rintro ⟨t, h⟩
        injection h with h1 h2
        exact ⟨h1.symm, t, h2⟩

theorem containsStr_iff (n h : Str) :
    containsStr n h = true ↔ ∃ u v, h = u ++ n ++ v := by
  induction h with
  | nil =>
    simp only [containsStr, strStarts_iff]
    constructor
    · rintro ⟨t, ht⟩
      exact ⟨[], t, by simpa using ht⟩
    · rintro ⟨u, v, huv⟩
      rcases List.append_eq_nil.mp (List.append_eq_nil.mp huv.symm).1 with ⟨_, h2⟩
      exact ⟨v, by simp [h2, (List.append_eq_nil.mp huv.symm).2]⟩
  | cons c cs ih =>
    simp only [containsStr, Bool.or_eq_true, strStarts_iff, ih]
    constructor
    · rintro (⟨t, ht⟩ | ⟨u, v, huv⟩)
      · exact ⟨[], t, by simpa using ht⟩
      · exact ⟨c :: u, v, by simp [huv]⟩
    · rintro ⟨u, v, huv⟩
      cases u with
      | nil => exact Or.inl ⟨v, by simpa using huv⟩
      | cons a us =>
        injection huv with h1 h2
        exact Or.inr ⟨us, v, h2⟩

theorem containsStr_mono {n h h' : Str} (sub : ∃ u v, h' = u ++ h ++ v)
    (hc : containsStr n h = true) : containsStr n h' = true := by
  rcases (containsStr_iff n h).mp hc with ⟨a, b, rfl⟩
  rcases sub with ⟨u, v, rfl⟩
  exact (containsStr_iff n _).mpr ⟨u ++ a, b ++ v, by simp⟩

theorem mem_of_containsStr {c : Char} {h : Str}
    (hc : containsStr [c] h = true) : c ∈ h := by
  rcases (containsStr_iff [c] h).mp hc with ⟨u, v, rfl⟩
  simp

/-- The trimmed string is a factor (contiguous substring) of the original. -/
theorem trimStr_factor (s : Str) : ∃ u v, s = u ++ trimStr s ++ v := by
  rcases List.dropWhile_suffix (l := s) (p := isWS) with ⟨u, hu⟩
  rcases List.dropWhile_suffix (l := (s.dropWhile isWS).reverse) (p := isWS)
    with ⟨w, hw⟩
  refine ⟨u, w.reverse, ?_⟩
  have h2 : s.dropWhile isWS = trimStr s ++ w.reverse := by
    unfold trimStr
    have := congrArg List.reverse hw
    simpa [List.reverse_append] using this.symm
  conv_lhs => rw [← hu]
  rw [h2, List.append_assoc]

/-! ## Code fences -/

/-- The backtick character. -/
def btick : Char := Char.ofNat 96

/-- A markdown code-fence marker (three backticks). -/
def fence : Str := [btick, btick, btick]

/-- Does `s` end with the sequence `suf`?  (Model of `endsWith`.) -/
def strEnds (suf s : Str) : Bool := strStarts suf.reverse s.reverse

namespace OutputParser

/-- `OutputParser.cleanCode`, first replacement: `.replace(/^```(\w*)\n/, '')`
strips a leading fence line (three backticks, a language word, a newline). -/
def stripLeadFence (code : Str) : Str :=
  if strStarts fence code then
    let after := (code.drop 3).dropWhile isWordChar
    match after with
    | '\n' :: tail => tail
    | _ => code
  else code

/-- `OutputParser.cleanCode`, second replacement: `.replace(/\n```$/g, '')`
strips a trailing `"\n```"`. -/
def stripTrailFence (code : Str) : Str :=
  if strEnds ('\n' :: fence) code then (code.reverse.drop 4).reverse else code

/-- `OutputParser.cleanCode`: strip a leading fence line, a trailing fence,
then `.trim()`. -/
def cleanCode (code : Str) : Str :=
  trimStr (stripTrailFence (stripLeadFence code))

theorem stripLeadFence_of_no_fence {s : Str}
    (h : containsStr fence s = false) : stripLeadFence s = s := by
  unfold stripLeadFence
  have : strStarts fence s = false := by
    by_contra hb
    rcases (strStarts_iff fence s).mp (by simpa using hb) with ⟨t, rfl⟩
    have : containsStr fence (fence ++ t) = true :=
      (containsStr_iff _ _).mpr ⟨[], t, by simp⟩
    simp [this] at h
  simp [this]

theorem stripTrailFence_of_no_fence {s : Str}
    (h : containsStr fence s = false) : stripTrailFence s = s := by
  unfold stripTrailFence
  have : strEnds ('\n' :: fence) s = false := by
    by_contra hb
    have hb' : strStarts ('\n' :: fence).reverse s.reverse = true := by
      simpa [strEnds] using hb
    rcases (strStarts_iff _ _).mp hb' with ⟨t, ht⟩
    have hs : s = t.reverse ++ ('\n' :: fence) := by
      have := congrArg List.reverse ht
      simpa [List.reverse_append] using this
    have : containsStr fence s = true := by
      rw [hs]
      exact (containsStr_iff _ _).mpr ⟨t.reverse ++ ['\n'], [], by simp⟩
    simp [this] at h
  simp [this]

end OutputParser

/-! ## C9: bracket-balance validator (`PatchEngine.validateSyntax`,
`OutputParser.hasValidSyntax`) -/

namespace PatchEngine

/-- Openers of the `brackets` table of `validateSyntax`. -/
def isOpenB (c : Char) : Bool := c = '(' || c = '[' || c = Char.ofNat 123

/-- The matching closer pushed on the stack (`brackets[char]`). -/
def closeOf (c : Char) : Char :=
  if c = '(' then ')' else if c = '[' then ']' else Char.ofNat 125

/-- Closers (`Object.values(brackets).includes(char)`). -/
def isCloseB (c : Char) : Bool := c = ')' || c = ']' || c = Char.ofNat 125

/-- One pass of the `validateSyntax` loop: the stack holds the expected
closers; `none` models the early `return false` on a mismatched or
unexpected closer. -/
def vsProc : Str → List Char → Option (List Char)
  | [], st => some st
  | c :: cs, st =>
    if isOpenB c then vsProc cs (closeOf c :: st)
    else if isCloseB c then
      match st with
      | [] => none
      | e :: st' => if e = c then vsProc cs st' else none
    else vsProc cs st

/-- `PatchEngine.validateSyntax`: run the bracket stack over every character
of the code and require an empty stack at the end. -/
def validateSyntax (code : Str) : Bool :=
  match vsProc code [] with
  | some st => st.isEmpty
  | none => false

/-- `OutputParser.hasValidSyntax`: the identical bracket-stack algorithm
duplicated in the output parser (the `language` argument is unused there
too). -/
def hasValidSyntax (code : Str) (_language : Str) : Bool :=
  match vsProc code [] with
  | some st => st.isEmpty
  | none => false

/-- Specification-side predicate, following the claim's words: a properly
balanced, properly nested bracket sequence (Dyck language over the three
bracket pairs). -/
inductive BalancedBrackets : Str → Prop
  | nil : BalancedBrackets []
  | wrap {c : Char} {xs : Str} : isOpenB c = true → BalancedBrackets xs →
      BalancedBrackets (c :: xs ++ [closeOf c])
  | append {xs ys : Str} : BalancedBrackets xs → BalancedBrackets ys →
      BalancedBrackets (xs ++ ys)

/-- The subsequence of bracket characters of a string. -/
def bracketsOf (s : Str) : Str := s.filter (fun c => isOpenB c || isCloseB c)

theorem open_not_close {c : Char} (h : isOpenB c = true) : isCloseB c = false := by
  unfold isOpenB at h
  rcases Bool.or_eq_true_iff.mp h with h' | h'
  · rcases Bool.or_eq_true_iff.mp h' with h'' | h'' <;>
      simp only [decide_eq_true_eq] at h'' <;> subst h'' <;> decide
  · simp only [decide_eq_true_eq] at h'
    subst h'; decide

theorem closeOf_not_open {c : Char} (h : isOpenB c = true) :
    isOpenB (closeOf c) = false := by
  unfold isOpenB at h ⊢
  rcases Bool.or_eq_true_iff.mp h with h' | h'
  · rcases Bool.or_eq_true_iff.mp h' with h'' | h'' <;>
      simp only [decide_eq_true_eq] at h'' <;> subst h'' <;> decide
  · simp only [decide_eq_true_eq] at h'
    subst h'; decide

theorem closeOf_close {c : Char} (h : isOpenB c = true) :
    isCloseB (closeOf c) = true := by
  unfold isOpenB at h
  rcases Bool.or_eq_true_iff.mp h with h' | h'
  · rcases Bool.or_eq_true_iff.mp h' with h'' | h'' <;>
      simp only [decide_eq_true_eq] at h'' <;> subst h'' <;> decide
  · simp only [decide_eq_true_eq] at h'
    subst h'; decide

/-- Non-bracket characters are skipped: the stack run only depends on the
bracket subsequence. -/
theorem vsProc_bracketsOf (s : Str) : ∀ st, vsProc s st = vsProc (bracketsOf s) st := by
  induction s with
  | nil => intro st; rfl
  | cons c cs ih =>
    intro st
    by_cases ho : isOpenB c = true
    · simp [vsProc, bracketsOf, ho, List.filter, ih]
    · by_cases hc : isCloseB c = true
      · simp only [Bool.not_eq_true] at ho
        cases st with
        | nil => simp [vsProc, bracketsOf, ho, hc, List.filter]
        | cons e st' => simp [vsProc, bracketsOf, ho, hc, List.filter, ih]
      · simp only [Bool.not_eq_true] at ho hc
        simp [vsProc, bracketsOf, ho, hc, List.filter, ih]

theorem vsProc_append (xs ys : Str) :
    ∀ st, vsProc (xs ++ ys) st = (vsProc xs st).bind (fun st1 => vsProc ys st1) := by
  induction xs with
  | nil => intro st; rfl
  | cons c cs ih =>
    intro st
    by_cases ho : isOpenB c = true
    · simp [vsProc, ho, ih]
    · by_cases hc : isCloseB c = true
      · simp only [Bool.not_eq_true] at ho
        cases st with
        | nil => simp [vsProc, ho, hc]
        | cons e st' =>
          by_cases he : e = c
          · simp [vsProc, ho, hc, he, ih]
          · simp [vsProc, ho, hc, he]
      · simp only [Bool.not_eq_true] at ho hc
        simp [vsProc, ho, hc, ih]

/-- A balanced sequence leaves any stack unchanged. -/
theorem balanced_vsProc {xs : Str} (h : BalancedBrackets xs) :
    ∀ st, vsProc xs st = some st := by
  induction h with
  | nil => intro st; rfl
  | wrap hc _ ih =>
    rename_i c ys hb
    intro st
    have h1 : vsProc (c :: ys ++ [closeOf c]) st =
        vsProc (ys ++ [closeOf c]) (closeOf c :: st) := by
      simp [vsProc, hc]
    rw [h1, vsProc_append, ih]
    simp [vsProc, closeOf_not_open hc, closeOf_close hc]
  | append _ _ ih1 ih2 =>
    intro st
    rw [vsProc_append, ih1]
    simp [ih2]

/-- Every character is a bracket. -/
def allB (xs : Str) : Prop := ∀ c ∈ xs, isOpenB c = true ∨ isCloseB c = true

/-- Split lemma: a run that consumes stack top `e` and ends empty splits the
input at the closer that pops `e`, with a balanced segment before it. -/
theorem vsProc_split : ∀ (n : ℕ) (xs : Str) (e : Char) (st : List Char),
    xs.length ≤ n → allB xs → vsProc xs (e :: st) = some [] →
    ∃ ys zs, xs = ys ++ e :: zs ∧ BalancedBrackets ys ∧ vsProc zs st = some [] := by
  intro n
  induction n with
  | zero =>
    intro xs e st hlen _ hrun
    have hx : xs = [] := List.length_eq_zero.mp (Nat.le_zero.mp hlen)
    subst hx
    simp [vsProc] at hrun
  | succ n ih =>
    intro xs e st hlen hall hrun
    cases xs with
    | nil => simp [vsProc] at hrun
    | cons c cs =>
      rcases hall c (by simp) with ho | hc
      · have hrun' : vsProc cs (closeOf c :: e :: st) = some [] := by
          simpa [vsProc, ho] using hrun
        have hlen' : cs.length ≤ n := by
          simp only [List.length_cons] at hlen; omega
        have hall' : allB cs := fun x hx => hall x (by simp [hx])
        rcases ih cs (closeOf c) (e :: st) hlen' hall' hrun'
          with ⟨ys1, zs1, hdec1, hbal1, hrun1⟩
        have hzslen : zs1.length ≤ n := by
          have : cs.length = ys1.length + (zs1.length + 1) := by
            simp [hdec1]
          omega
        have hallz : allB zs1 := fun x hx => hall' x (by rw [hdec1]; simp [hx])
        rcases ih zs1 e st hzslen hallz hrun1 with ⟨ys2, zs2, hdec2, hbal2, hrun2⟩
        refine ⟨(c :: (ys1 ++ [closeOf c])) ++ ys2, zs2, ?_, ?_, hrun2⟩
        · rw [hdec1, hdec2]; simp
        · exact BalancedBrackets.append (BalancedBrackets.wrap ho hbal1) hbal2
      · have ho' : isOpenB c = false := by
          cases hob : isOpenB c
          · rfl
          · exact absurd hc (by simp [open_not_close hob])
        by_cases he : e = c
        · subst he
          have hrun' : vsProc cs st = some [] := by
            simpa [vsProc, ho', hc] using hrun
          exact ⟨[], cs, by simp, BalancedBrackets.nil, hrun'⟩
        · simp [vsProc, ho', hc, he] at hrun

/-- Completeness of the stack check: a successful run over a pure bracket
string means the string is balanced. -/
theorem vsProc_balanced_of_run : ∀ (n : ℕ) (xs : Str), xs.length ≤ n →
    allB xs → vsProc xs [] = some [] → BalancedBrackets xs := by
  intro n
  induction n with
  | zero =>
    intro xs hlen _ _
    have hx : xs = [] := List.length_eq_zero.mp (Nat.le_zero.mp hlen)
    subst hx; exact BalancedBrackets.nil
  | succ n ih =>
    intro xs hlen hall hrun
    cases xs with
    | nil => exact BalancedBrackets.nil
    | cons c cs =>
      rcases hall c (by simp) with ho | hc
      · have hrun' : vsProc cs [closeOf c] = some [] := by
          simpa [vsProc, ho] using hrun
        have hlen' : cs.length ≤ n := by
          simp only [List.length_cons] at hlen; omega
        have hall' : allB cs := fun x hx => hall x (by simp [hx])
        rcases vsProc_split n cs (closeOf c) [] hlen' hall' hrun'
          with ⟨ys, zs, hdec, hbal, hrunz⟩
        have hzlen : zs.length ≤ n := by
          have : cs.length = ys.length + (zs.length + 1) := by simp [hdec]
          omega
        have hallz : allB zs := fun x hx => hall' x (by rw [hdec]; simp [hx])
        have hbz : BalancedBrackets zs := ih zs hzlen hallz hrunz
        have hcomb := BalancedBrackets.append (BalancedBrackets.wrap ho hbal) hbz
        have heq : (c :: (ys ++ [closeOf c])) ++ zs = c :: cs := by
          rw [hdec]; simp
        exact heq ▸ hcomb
      · have ho' : isOpenB c = false := by
          cases hob : isOpenB c
          · rfl
          · exact absurd hc (by simp [open_not_close hob])
        simp [vsProc, ho', hc] at hrun

theorem allB_bracketsOf (s : Str) : allB (bracketsOf s) := by
  intro c hcmem
  have := (List.mem_filter.mp hcmem).2
  simpa using Bool.or_eq_true_iff.mp this

theorem validateSyntax_iff (s : Str) :
    validateSyntax s = true ↔ BalancedBrackets (bracketsOf s) := by
  constructor
  · intro h
    unfold validateSyntax at h
    rcases hr : vsProc s [] with _ | st
    · rw [hr] at h; simp at h
    · rw [hr] at h
      have hst : st = [] := by simpa using h
      subst hst
      have hb : vsProc (bracketsOf s) [] = some [] := by
        rw [← vsProc_bracketsOf]; exact hr
      exact vsProc_balanced_of_run (bracketsOf s).length _ le_rfl
        (allB_bracketsOf s) hb
  · intro h
    have hb : vsProc s [] = some [] := by
      rw [vsProc_bracketsOf]; exact balanced_vsProc h []
    simp [validateSyntax, hb]

/-- C9: the syntax validator accepts a string exactly when its subsequence of
bracket characters `( ) [ ] \x7b \x7d` is properly balanced and nested; every
character occurrence counts (string literals and comments included), so a
code string whose only unmatched bracket sits inside a string literal is
rejected; `OutputParser.hasValidSyntax` is the same check. -/
theorem validateSyntax_balanced_brackets :
    (∀ code : Str, validateSyntax code = true ↔ BalancedBrackets (bracketsOf code)) ∧
    (∀ code lang : Str, hasValidSyntax code lang = validateSyntax code) ∧
    validateSyntax (String.toList "const s = \x22(\x22;") = false := by
  refine ⟨validateSyntax_iff, fun _ _ => rfl, by decide⟩

end PatchEngine

/-! ## C8: `cleanCode` on fence-free input -/

/-- C8 (counterexample): `cleanCode` is not the identity on every string free
of code-fence markers — the final `.trim()` removes surrounding whitespace,
so `" a "` (which contains no fence) comes back as `"a"`. -/
theorem cleanCode_noop_counterexample :
    containsStr fence (String.toList " a ") = false ∧
    OutputParser.cleanCode (String.toList " a ") ≠ String.toList " a " := by
  decide

/-- C8 (amended): on a string free of code-fence markers, `cleanCode` only
trims; it returns the string unchanged when the string additionally has no
leading or trailing whitespace (i.e. is already trimmed). -/
theorem cleanCode_noop_on_trimmed (s : Str)
    (hf : containsStr fence s = false) (ht : trimStr s = s) :
    OutputParser.cleanCode s = s := by
  unfold OutputParser.cleanCode
  rw [OutputParser.stripLeadFence_of_no_fence hf,
    OutputParser.stripTrailFence_of_no_fence hf, ht]

theorem cleanCode_noop_on_trimmed_witness :
    OutputParser.cleanCode (String.toList "hello world") =
      String.toList "hello world" :=
  cleanCode_noop_on_trimmed _ (by decide) (by decide)

/-! ## C10: patch history records only successful applications
(`PatchEngine.addToHistory` and its three call sites) -/

namespace PatchEngine

/-- The `PatchHistory` interface of `patchEngine.ts`. -/
structure PatchHistory where
  id : Str
  timestamp : ℕ
  filePath : Str
  originalCode : Str
  newCode : Str
  instruction : Str
  success : Bool
  confidence : ℚ
  patchType : Str
  deriving DecidableEq

/-- `PatchEngine.maxHistorySize`. -/
def maxHistorySize : ℕ := 50

/-- `PatchEngine.addToHistory`: unshift the entry, then cap the buffer at
`maxHistorySize`. -/
def addToHistory (entry : PatchHistory) (patchHistory : List PatchHistory) :
    List PatchHistory :=
  let h := entry :: patchHistory
  if maxHistorySize < h.length then h.take maxHistorySize else h

/-- The per-entry data a recording site fills in besides the `success` flag
(which each site passes as the literal `true`). -/
structure HistoryEntryData where
  id : Str
  timestamp : ℕ
  filePath : Str
  originalCode : Str
  newCode : Str
  instruction : Str
  confidence : ℚ
  patchType : Str
  deriving DecidableEq

/-- The entry built at each recording site: every field from the call's data,
`success` hard-coded to `true` (as in all three sites). -/
def entryOf (d : HistoryEntryData) : PatchHistory :=
  ⟨d.id, d.timestamp, d.filePath, d.originalCode, d.newCode, d.instruction,
    true, d.confidence, d.patchType⟩

/-- The operations of `PatchEngine` that touch the history:
`applyInlinePatch`, `applyGenerationPatch`, `applyMultiFilePatch` (which
records one entry per multi-file change) and `clearHistory`.  Each apply
event carries whether the workspace edit succeeded and whether
`options.trackChanges` was set — the two guards in front of the recording. -/
inductive PatchEvent where
  | inlinePatch (applySucceeded trackChanges : Bool) (d : HistoryEntryData)
  | generationPatch (applySucceeded trackChanges : Bool) (d : HistoryEntryData)
  | multiFilePatch (applySucceeded trackChanges : Bool) (ds : List HistoryEntryData)
  | clearHistory

/-- Effect of one `PatchEngine` operation on the static `patchHistory`
buffer, mirroring the `if (success && options.trackChanges)` guards of the
three recording sites. -/
def stepHistory (h : List PatchHistory) : PatchEvent → List PatchHistory
  | .inlinePatch ok track d => if ok && track then addToHistory (entryOf d) h else h
  | .generationPatch ok track d => if ok && track then addToHistory (entryOf d) h else h
  | .multiFilePatch ok track ds =>
    if ok && track then ds.foldl (fun acc d => addToHistory (entryOf d) acc) h else h
  | .clearHistory => []

theorem mem_addToHistory {x entry : PatchHistory} {h : List PatchHistory}
    (hx : x ∈ addToHistory entry h) : x = entry ∨ x ∈ h := by
  unfold addToHistory at hx
  by_cases hc : maxHistorySize < (entry :: h).length
  · simp only [hc, if_true] at hx
    have := List.take_subset maxHistorySize (entry :: h) hx
    simpa using this
  · simp only [hc, if_false] at hx
    simpa using hx

theorem stepHistory_success {h : List PatchHistory}
    (inv : ∀ x ∈ h, x.success = true) (evt : PatchEvent) :
    ∀ x ∈ stepHistory h evt, x.success = true := by
  cases evt with
  | inlinePatch ok track d =>
    intro x hx
    unfold stepHistory at hx
    by_cases hg : (ok && track) = true
    · simp only [hg, if_true] at hx
      rcases mem_addToHistory hx with rfl | hmem
      · rfl
      · exact inv x hmem
    · simp only [hg, if_false] at hx
      exact inv x hx
  | generationPatch ok track d =>
    intro x hx
    unfold stepHistory at hx
    by_cases hg : (ok && track) = true
    · simp only [hg, if_true] at hx
      rcases mem_addToHistory hx with rfl | hmem
      · rfl
      · exact inv x hmem
    · simp only [hg, if_false] at hx
      exact inv x hx
  | multiFilePatch ok track ds =>
    intro x hx
    unfold stepHistory at hx
    by_cases hg : (ok && track) = true
    · simp only [hg, if_true] at hx
      clear hg
      induction ds generalizing h with
      | nil => exact inv x hx
      | cons d ds ih =>
        refine ih (h := addToHistory (entryOf d) h) ?_ (by simpa using hx)
        intro y hy
        rcases mem_addToHistory hy with rfl | hmem
        · rfl
        · exact inv y hmem
    · simp only [hg, if_false] at hx
      exact inv x hx
  | clearHistory => intro x hx; simp [stepHistory] at hx

/-- C10: starting from the empty history, after any sequence of
`PatchEngine` operations every entry in the history buffer has
`success = true` — failed applications are never recorded, since all three
recording sites run only after a successful apply and pass `success: true`
literally. -/
theorem patchHistory_all_success (evs : List PatchEvent) :
    ∀ x ∈ evs.foldl stepHistory [], x.success = true := by
  have gen : ∀ (evs : List PatchEvent) (h : List PatchHistory),
      (∀ x ∈ h, x.success = true) →
      ∀ x ∈ evs.foldl stepHistory h, x.success = true := by
    intro evs
    induction evs with
    | nil => intro h inv x hx; exact inv x hx
    | cons e es ih =>
      intro h inv x hx
      exact ih (stepHistory h e) (stepHistory_success inv e) x hx
  exact gen evs [] (by intro x hx; simp at hx)

/-- Concrete data for the C10 witness. -/
def sampleEntryData : HistoryEntryData :=
  ⟨[], 0, [], [], [], [], 1, []⟩

theorem patchHistory_all_success_witness :
    entryOf sampleEntryData ∈
      ([PatchEvent.inlinePatch true true sampleEntryData].foldl stepHistory []) ∧
    (entryOf sampleEntryData).success = true :=
  ⟨by decide,
    patchHistory_all_success [PatchEvent.inlinePatch true true sampleEntryData]
      (entryOf sampleEntryData) (by decide)⟩

end PatchEngine

/-! ## ProjectIndexer (`projectIndexer.ts`): C7 index resilience, C6 build
re-entrancy -/

/-- Split a string at a separator character (model of `split(c)`). -/
def splitOnCh (sep : Char) (s : Str) : List Str :=
  match s with
  | [] => [[]]
  | c :: cs =>
    let rest := splitOnCh sep cs
    if c = sep then [] :: rest
    else match rest with
      | [] => [[c]]
      | l :: ls => (c :: l) :: ls

/-- Model of Node's `path.basename(p)`: the last `/`-separated segment. -/
def basenameStr (p : Str) : Str := (splitOnCh '/' p).getLastD p

/-- Model of Node's `path.basename(p, path.extname(p))`: the last segment
with its extension (final dot at a positive index and what follows)
removed. -/
def basenameNoExt (p : Str) : Str :=
  let b := basenameStr p
  let r := b.reverse
  let afterDot := r.takeWhile (fun c => c ≠ '.')
  if afterDot.length = r.length then b
  else
    let beforeDot := r.drop (afterDot.length + 1)
    if beforeDot.isEmpty then b else beforeDot.reverse

namespace ProjectIndexer

/-- The `FileIndex` interface of `projectIndexer.ts`. -/
structure FileIndex where
  path : Str
  relativePath : Str
  exports : List Str
  imports : List Str
  classes : List Str
  functions : List Str
  interfaces : List Str
  summary : Str
  language : Str
  lastModified : ℕ
  lineCount : ℕ
  deriving DecidableEq

/-- JavaScript object-key assignment `this.projectIndex[fileName] =
fileIndex`: overwrite in place if the key exists, append otherwise. -/
def setKey (m : List (Str × FileIndex)) (k : Str) (v : FileIndex) :
    List (Str × FileIndex) :=
  if m.any (fun p => decide (p.1 = k)) then
    m.map (fun p => if p.1 = k then (k, v) else p)
  else m ++ [(k, v)]

/-- The per-file loop of `ProjectIndexer.buildIndex` (lines 1159–1175):
for each discovered file, `indexFile` either yields a record (stored under
`path.basename(filePath)`) or fails — `indexFile` returns `null` from its
own `catch`, and the loop's `try/catch` logs and continues.  The outcome of
`indexFile` (a file-system read) is taken as input: `none` models an
unreadable or unindexable file. -/
def buildIndexLoop (outcomes : List (Str × Option FileIndex)) :
    List (Str × FileIndex) :=
  outcomes.foldl
    (fun acc o =>
      match o.2 with
      | some fi => setKey acc (basenameStr o.1) fi
      | none => acc)
    []

theorem setKey_fresh {m : List (Str × FileIndex)} {k : Str} {v : FileIndex}
    (h : m.any (fun p => decide (p.1 = k)) = false) :
    setKey m k v = m ++ [(k, v)] := by
  simp only [setKey, h]
  rfl

/-- Keys produced by the build loop: with pairwise-distinct basenames, the
result lists exactly the basenames of the successfully indexed files, in
order, after any accumulator keys. -/
theorem buildIndexLoop_go_keys :
    ∀ (outs : List (Str × Option FileIndex)) (acc : List (Str × FileIndex)),
    (outs.map (fun o => basenameStr o.1)).Nodup →
    (∀ o ∈ outs, o.2.isSome = true →
      (acc.any (fun p => decide (p.1 = basenameStr o.1))) = false) →
    ((outs.foldl
        (fun acc o =>
          match o.2 with
          | some fi => setKey acc (basenameStr o.1) fi
          | none => acc)
        acc).map Prod.fst) =
      acc.map Prod.fst ++
        ((outs.filter (fun o => o.2.isSome)).map (fun o => basenameStr o.1)) := by
  intro outs
  induction outs with
  | nil => intro acc _ _; simp
  | cons o rest ih =>
    intro acc hnodup hfresh
    rcases ho : o.2 with _ | fi
    · have h1 : (rest.map (fun o => basenameStr o.1)).Nodup :=
        (List.nodup_cons.mp hnodup).2
      have h2 : ∀ o' ∈ rest, o'.2.isSome = true →
          (acc.any (fun p => decide (p.1 = basenameStr o'.1))) = false :=
        fun o' ho' hs => hfresh o' (by simp [ho']) hs
      simpa [List.foldl_cons, ho] using ih acc h1 h2
    · have hfree : (acc.any (fun p => decide (p.1 = basenameStr o.1))) = false :=
        hfresh o (by simp) (by simp [ho])
      have hstep : setKey acc (basenameStr o.1) fi = acc ++ [(basenameStr o.1, fi)] :=
        setKey_fresh hfree
      have h1 : (rest.map (fun o => basenameStr o.1)).Nodup :=
        (List.nodup_cons.mp hnodup).2
      have hhead : basenameStr o.1 ∉ rest.map (fun o => basenameStr o.1) :=
        (List.nodup_cons.mp hnodup).1
      have h2 : ∀ o' ∈ rest, o'.2.isSome = true →
          ((acc ++ [(basenameStr o.1, fi)]).any
            (fun p => decide (p.1 = basenameStr o'.1))) = false := by
        intro o' ho' hs
        have hacc := hfresh o' (by simp [ho']) hs
        have hne : basenameStr o.1 ≠ basenameStr o'.1 := by
          intro heq
          exact hhead (heq ▸ List.mem_map_of_mem (fun o => basenameStr o.1) ho')
        simp [List.any_append, hacc, hne]
      have := ih (acc ++ [(basenameStr o.1, fi)]) h1 h2
      simp only [List.foldl_cons, ho, hstep]
      rw [this]
      simp [ho]

/-- Successes and failures partition the outcome list. -/
theorem filter_isSome_length (outs : List (Str × Option FileIndex)) :
    (outs.filter (fun o => o.2.isSome)).length +
      (outs.filter (fun o => o.2.isNone)).length = outs.length := by
  induction outs with
  | nil => rfl
  | cons o rest ih =>
    rcases ho : o.2 with _ | fi <;> simp [List.filter, ho, ← ih] <;> omega

/-- C7: if ten candidate files have pairwise distinct base names and exactly
one of them fails to read or index (its `indexFile` outcome is `none`) while
the other nine succeed, the `buildIndex` loop completes (it is a total
function — per-file failures are caught, not fatal) and the resulting
project index holds exactly nine records, keyed by the nine successful
files' base names. -/
theorem buildIndex_skips_bad_file (outcomes : List (Str × Option FileIndex))
    (hlen : outcomes.length = 10)
    (hnodup : (outcomes.map (fun o => basenameStr o.1)).Nodup)
    (hbad : (outcomes.filter (fun o => o.2.isNone)).length = 1) :
    (buildIndexLoop outcomes).length = 9 ∧
    (buildIndexLoop outcomes).map Prod.fst =
      (outcomes.filter (fun o => o.2.isSome)).map (fun o => basenameStr o.1) := by
  have hkeys := buildIndexLoop_go_keys outcomes [] hnodup (by intro o _ _; rfl)
  have hkeys' : (buildIndexLoop outcomes).map Prod.fst =
      (outcomes.filter (fun o => o.2.isSome)).map (fun o => basenameStr o.1) := by
    simpa [buildIndexLoop] using hkeys
  refine ⟨?_, hkeys'⟩
  have hsome : (outcomes.filter (fun o => o.2.isSome)).length = 9 := by
    have := filter_isSome_length outcomes
    omega
  have := congrArg List.length hkeys'
  simpa [hsome] using this

/-- A minimal concrete `FileIndex` record for witnesses. -/
def sampleRecord (p : Str) : FileIndex :=
  ⟨p, p, [], [], [], [], [], [], [], 0, 1⟩

/-- Ten outcome samples for the C7 witness: `f4.ts` fails to index. -/
def sampleOutcomes : List (Str × Option FileIndex) :=
  (List.range 10).map (fun i =>
    let p := String.toList ("f" ++ toString i ++ ".ts")
    (p, if i = 4 then none else some (sampleRecord p)))

theorem buildIndex_skips_bad_file_witness :
    sampleOutcomes.length = 10 ∧
    (buildIndexLoop sampleOutcomes).length = 9 :=
  ⟨by decide,
    (buildIndex_skips_bad_file sampleOutcomes (by decide) (by decide) (by decide)).1⟩

/-! ### C6: re-entrant `buildIndex` and in-place rebuild -/

/-- The mutable fields of the `ProjectIndexer` singleton. -/
structure IndexerState where
  projectIndex : List (Str × FileIndex)
  isIndexing : Bool
  lastIndexTime : ℕ
  deriving DecidableEq

/-- The early return of `buildIndex` (lines 1110–1113): when
`this.isIndexing` is set, the call logs, touches nothing, and returns the
current value of `this.projectIndex`. -/
def buildIndexReentrant (st : IndexerState) :
    List (Str × FileIndex) × IndexerState :=
  (st.projectIndex, st)

/-- The state mutations a running `buildIndex` performs, in order:
`this.isIndexing = true`; `this.projectIndex = {}` (inside the progress
callback); one `this.projectIndex[fileName] = fileIndex` per indexed file;
`this.lastIndexTime = Date.now()` and, in the `finally`,
`this.isIndexing = false`.  Awaited I/O between mutations is where a
concurrent call can observe the state. -/
inductive BuildStep where
  | begin
  | clearMap
  | addFile (filePath : Str) (fi : FileIndex)
  | finish (time : ℕ)

/-- Apply one build micro-step to the indexer state. -/
def applyBuildStep (st : IndexerState) : BuildStep → IndexerState
  | .begin => { st with isIndexing := true }
  | .clearMap => { st with projectIndex := [] }
  | .addFile p fi =>
    { st with projectIndex := setKey st.projectIndex (basenameStr p) fi }
  | .finish t => { st with isIndexing := false, lastIndexTime := t }

/-- Run a sequence of build micro-steps. -/
def runBuildSteps (st : IndexerState) (steps : List BuildStep) : IndexerState :=
  steps.foldl applyBuildStep st

/-- C6 (counterexample): `buildIndex` rebuilds the index map in place — the
build assigns `this.projectIndex = {}` and then inserts records one by one —
so a second `buildIndex` call issued after the first file of a two-file
rebuild returns a half-written index, not the previous snapshot: starting
from a previous index holding `old.ts`, after `begin; clear; add a.ts` the
re-entrant call observes an index that differs from the previous snapshot
(and from the completed rebuild). -/
theorem buildIndex_reentrant_counterexample :
    (runBuildSteps
        ⟨[(String.toList "old.ts", sampleRecord (String.toList "old.ts"))], false, 0⟩
        [BuildStep.begin, BuildStep.clearMap,
          BuildStep.addFile (String.toList "a.ts") (sampleRecord (String.toList "a.ts"))]).isIndexing
        = true ∧
    (buildIndexReentrant
        (runBuildSteps
          ⟨[(String.toList "old.ts", sampleRecord (String.toList "old.ts"))], false, 0⟩
          [BuildStep.begin, BuildStep.clearMap,
            BuildStep.addFile (String.toList "a.ts") (sampleRecord (String.toList "a.ts"))])).1
      ≠ [(String.toList "old.ts", sampleRecord (String.toList "old.ts"))] := by
  decide

/-- C6 (amended): a `buildIndex` call issued while a build is in progress
returns the current value of the index field immediately — no error and no
blocked wait, and the state is untouched; but because the running build
clears and repopulates `this.projectIndex` in place, the value observed
mid-build is the partially repopulated map (here: exactly the first indexed
file of the running rebuild), not the pre-build snapshot. -/
theorem buildIndex_reentrant_returns_current (st0 : IndexerState)
    (p : Str) (fi : FileIndex) :
    (runBuildSteps st0
        [BuildStep.begin, BuildStep.clearMap, BuildStep.addFile p fi]).isIndexing = true ∧
    buildIndexReentrant
        (runBuildSteps st0
          [BuildStep.begin, BuildStep.clearMap, BuildStep.addFile p fi]) =
      ((runBuildSteps st0
          [BuildStep.begin, BuildStep.clearMap, BuildStep.addFile p fi]).projectIndex,
        runBuildSteps st0
          [BuildStep.begin, BuildStep.clearMap, BuildStep.addFile p fi]) ∧
    (runBuildSteps st0
        [BuildStep.begin, BuildStep.clearMap, BuildStep.addFile p fi]).projectIndex =
      [(basenameStr p, fi)] := by
  refine ⟨rfl, rfl, ?_⟩
  simp [runBuildSteps, applyBuildStep, setKey]

end ProjectIndexer

/-! ## C1: `SmartFileResolver.resolveFiles` exact-match short-circuit -/

namespace SmartFileResolver

/-- The `ResolverOptions` interface. -/
structure ResolverOptions where
  maxResults : ℕ
  minScore : ℚ
  enableFuzzyMatching : Bool
  prioritizeExactMatches : Bool

/-- Defaults merged in `resolveFiles`. -/
def defaultResolverOptions : ResolverOptions := ⟨10, 1/10, true, true⟩

/-- The closed `matchType` tag set (`class` and `export` are Lean keywords,
hence `cls` and `exprt`). -/
inductive MatchType where
  | exact | cls | function | exprt | fuzzy
  deriving DecidableEq

/-- The `FileMatch` interface. -/
structure FileMatch where
  file : ProjectIndexer.FileIndex
  score : ℚ
  matchType : MatchType
  matchReason : Str
  deriving DecidableEq

/-- `SmartFileResolver.findExactFileMatches`: for each indexed file, compare
the base name (extension removed) with the identifier, case-insensitively:
equality scores 1.0, containment `identifier.length / fileName.length`
scaled by 0.8; both are tagged `exact`. -/
def findExactFileMatches (identifier : Str)
    (index : List ProjectIndexer.FileIndex) : List FileMatch :=
  index.flatMap (fun file =>
    let fileName := basenameNoExt file.path
    if lowerStr fileName = lowerStr identifier then
      [⟨file, 1, MatchType.exact,
        String.toList "Exact file name match: " ++ fileName⟩]
    else if containsStr (lowerStr identifier) (lowerStr fileName) then
      [⟨file, (identifier.length : ℚ) / (fileName.length : ℚ) * (8/10),
        MatchType.exact,
        String.toList "File name contains: " ++ identifier⟩]
    else [])

/-- `SmartFileResolver.findClassMatches`. -/
def findClassMatches (identifier : Str)
    (index : List ProjectIndexer.FileIndex) : List FileMatch :=
  index.flatMap (fun file =>
    file.classes.flatMap (fun className =>
      if lowerStr className = lowerStr identifier then
        [⟨file, 9/10, MatchType.cls,
          String.toList "Exact class match: " ++ className⟩]
      else if containsStr (lowerStr identifier) (lowerStr className) then
        [⟨file, (identifier.length : ℚ) / (className.length : ℚ) * (7/10),
          MatchType.cls,
          String.toList "Class contains: " ++ identifier⟩]
      else []))

/-- `SmartFileResolver.findFunctionMatches`. -/
def findFunctionMatches (identifier : Str)
    (index : List ProjectIndexer.FileIndex) : List FileMatch :=
  index.flatMap (fun file =>
    file.functions.flatMap (fun functionName =>
      if lowerStr functionName = lowerStr identifier then
        [⟨file, 8/10, MatchType.function,
          String.toList "Exact function match: " ++ functionName⟩]
      else if containsStr (lowerStr identifier) (lowerStr functionName) then
        [⟨file, (identifier.length : ℚ) / (functionName.length : ℚ) * (6/10),
          MatchType.function,
          String.toList "Function contains: " ++ identifier⟩]
      else []))

/-- `SmartFileResolver.findExportMatches`. -/
def findExportMatches (identifier : Str)
    (index : List ProjectIndexer.FileIndex) : List FileMatch :=
  index.flatMap (fun file =>
    file.exports.flatMap (fun exportName =>
      if lowerStr exportName = lowerStr identifier then
        [⟨file, 85/100, MatchType.exprt,
          String.toList "Exact export match: " ++ exportName⟩]
      else if containsStr (lowerStr identifier) (lowerStr exportName) then
        [⟨file, (identifier.length : ℚ) / (exportName.length : ℚ) * (65/100),
          MatchType.exprt,
          String.toList "Export contains: " ++ identifier⟩]
      else []))

/-- Greedy character-subsequence matching of `calculateFuzzyScore`'s second
phase. -/
def subseqMatches : Str → Str → ℕ
  | _, [] => 0
  | [], _ => 0
  | h :: hs, n :: ns =>
    if h = n then 1 + subseqMatches hs ns else subseqMatches hs (n :: ns)

/-- `SmartFileResolver.calculateFuzzyScore`: containment scores
`needle.length / haystack.length`, otherwise greedy character matching
scaled by 0.8. -/
def calculateFuzzyScore (needle haystack : Str) : ℚ :=
  if needle.isEmpty || haystack.isEmpty then 0
  else
    let nl := lowerStr needle
    let hl := lowerStr haystack
    if containsStr nl hl then (nl.length : ℚ) / (hl.length : ℚ)
    else ((subseqMatches hl nl : ℚ) / (nl.length : ℚ)) * (8/10)

/-- `SmartFileResolver.findFuzzyMatches`: fuzzy scores against the relative
path (kept above 0.3, scaled by 0.5) and the summary (kept above 0.3, scaled
by 0.4). -/
def findFuzzyMatches (identifier : Str)
    (index : List ProjectIndexer.FileIndex) : List FileMatch :=
  index.flatMap (fun file =>
    let pathScore := calculateFuzzyScore identifier file.relativePath
    let summaryScore := calculateFuzzyScore identifier file.summary
    (if 3/10 < pathScore then
      [⟨file, pathScore * (5/10), MatchType.fuzzy,
        String.toList "Fuzzy path match: " ++ identifier⟩]
    else []) ++
    (if 3/10 < summaryScore then
      [⟨file, summaryScore * (4/10), MatchType.fuzzy,
        String.toList "Fuzzy summary match: " ++ identifier⟩]
    else []))

/-- First-entry replacement of `deduplicateMatches`' else-branch: the entry
at `findIndex(m => m.file.path === key)` is overwritten when the new match
scores strictly higher. -/
def replaceFirst : List FileMatch → FileMatch → List FileMatch
  | [], _ => []
  | u :: us, m =>
    if u.file.path = m.file.path then
      (if u.score < m.score then m :: us else u :: us)
    else u :: replaceFirst us m

/-- `SmartFileResolver.deduplicateMatches`: first occurrence of a file path
is kept (and later overwritten in place by a strictly higher-scoring match
for the same path). -/
def deduplicateMatches (ms : List FileMatch) : List FileMatch :=
  ms.foldl
    (fun uniqueMatches m =>
      if uniqueMatches.any (fun u => decide (u.file.path = m.file.path)) then
        replaceFirst uniqueMatches m
      else uniqueMatches ++ [m])
    []

/-- Stable descending insertion modelling JavaScript's stable
`sort((a, b) => b.score - a.score)`: a new element goes after existing
elements of equal score. -/
def insertDesc (acc : List FileMatch) (m : FileMatch) : List FileMatch :=
  match acc with
  | [] => [m]
  | x :: xs => if x.score < m.score then m :: x :: xs else x :: insertDesc xs m

/-- Stable sort by descending score. -/
def sortByScoreDesc (l : List FileMatch) : List FileMatch :=
  l.foldl insertDesc []

/-- Core of `SmartFileResolver.resolveFiles` (lines 54–141), parameterized
by the identifier list `extractIdentifiers` produced from the instruction
(so the statement covers every instruction): the exact-filename pass runs
first, and if it produced any match only the single best exact match is
returned; otherwise the class, function, export and (when enabled) fuzzy
passes run, followed by dedup, `minScore` filtering, descending sort and
truncation to `maxResults`. -/
def resolveFiles (identifiers : List Str)
    (index : List ProjectIndexer.FileIndex) (options : ResolverOptions) :
    List FileMatch :=
  let exactMatches := identifiers.flatMap (fun id => findExactFileMatches id index)
  if exactMatches.isEmpty then
    let otherMatches :=
      identifiers.flatMap (fun id => findClassMatches id index) ++
      identifiers.flatMap (fun id => findFunctionMatches id index) ++
      identifiers.flatMap (fun id => findExportMatches id index) ++
      (if options.enableFuzzyMatching then
        identifiers.flatMap (fun id => findFuzzyMatches id index)
      else [])
    let uniqueMatches := deduplicateMatches otherMatches
    (sortByScoreDesc
      (uniqueMatches.filter (fun m => options.minScore ≤ m.score))).take
      options.maxResults
  else (sortByScoreDesc exactMatches).take 1

end SmartFileResolver

namespace SmartFileResolver

theorem mem_insertDesc {x m : FileMatch} {acc : List FileMatch} :
    x ∈ insertDesc acc m ↔ x ∈ acc ∨ x = m := by
  induction acc with
  | nil => simp [insertDesc]
  | cons a as ih =>
    by_cases hlt : a.score < m.score
    · simp [insertDesc, hlt]
      tauto
    · simp [insertDesc, hlt, ih]
      tauto

/-- Descending-score order on matches. -/
def scoreGE (a b : FileMatch) : Prop := b.score ≤ a.score

theorem pairwise_insertDesc {acc : List FileMatch} {m : FileMatch}
    (h : acc.Pairwise scoreGE) : (insertDesc acc m).Pairwise scoreGE := by
  induction acc with
  | nil => simp [insertDesc, List.pairwise_cons]
  | cons a as ih =>
    rcases List.pairwise_cons.mp h with ⟨ha, has⟩
    by_cases hlt : a.score < m.score
    · simp only [insertDesc, hlt, if_true]
      refine List.pairwise_cons.mpr ⟨?_, h⟩
      intro y hy
      rcases List.mem_cons.mp hy with rfl | hy'
      · exact le_of_lt hlt
      · exact le_trans (ha y hy') (le_of_lt hlt)
    · simp only [insertDesc, hlt, if_false]
      refine List.pairwise_cons.mpr ⟨?_, ih has⟩
      intro y hy
      rcases mem_insertDesc.mp hy with hy' | rfl
      · exact ha y hy'
      · exact le_of_not_lt hlt

theorem mem_sortByScoreDesc {x : FileMatch} {l : List FileMatch} :
    x ∈ sortByScoreDesc l ↔ x ∈ l := by
  have gen : ∀ (l acc : List FileMatch),
      (x ∈ l.foldl insertDesc acc ↔ x ∈ acc ∨ x ∈ l) := by
    intro l
    induction l with
    | nil => intro acc; simp
    | cons a as ih =>
      intro acc
      simp only [List.foldl_cons, ih, mem_insertDesc, List.mem_cons]
      tauto
  simpa [sortByScoreDesc] using gen l []

theorem pairwise_sortByScoreDesc (l : List FileMatch) :
    (sortByScoreDesc l).Pairwise scoreGE := by
  have gen : ∀ (l acc : List FileMatch), acc.Pairwise scoreGE →
      (l.foldl insertDesc acc).Pairwise scoreGE := by
    intro l
    induction l with
    | nil => intro acc h; exact h
    | cons a as ih =>
      intro acc h
      exact ih (insertDesc acc a) (pairwise_insertDesc h)
  exact gen l [] List.Pairwise.nil

/-- A nonempty list sorts to a list headed by a maximal element. -/
theorem sortByScoreDesc_head_max {l : List FileMatch} (hne : l ≠ []) :
    ∃ b t, sortByScoreDesc l = b :: t ∧ b ∈ l ∧ ∀ x ∈ l, x.score ≤ b.score := by
  rcases hl : sortByScoreDesc l with _ | ⟨b, t⟩
  · rcases List.exists_mem_of_ne_nil l hne with ⟨x, hx⟩
    have : x ∈ sortByScoreDesc l := mem_sortByScoreDesc.mpr hx
    rw [hl] at this
    simp at this
  · refine ⟨b, t, rfl, ?_, ?_⟩
    · have : b ∈ sortByScoreDesc l := by rw [hl]; simp
      exact mem_sortByScoreDesc.mp this
    · intro x hx
      have hx' : x ∈ b :: t := by rw [← hl]; exact mem_sortByScoreDesc.mpr hx
      rcases List.mem_cons.mp hx' with rfl | hxt
      · exact le_refl _
      · have := (List.pairwise_cons.mp (hl ▸ pairwise_sortByScoreDesc l)).1
        exact this x hxt

/-- Every match emitted by the exact pass carries the `exact` tag. -/
theorem findExactFileMatches_type {m : FileMatch} {id : Str}
    {index : List ProjectIndexer.FileIndex}
    (h : m ∈ findExactFileMatches id index) : m.matchType = MatchType.exact := by
  rcases List.mem_flatMap.mp h with ⟨file, _, hm⟩
  by_cases h1 : lowerStr (basenameNoExt file.path) = lowerStr id
  · simp only [findExactFileMatches, h1, if_true, List.mem_singleton] at hm
    subst hm; rfl
  · by_cases h2 :
      containsStr (lowerStr id) (lowerStr (basenameNoExt file.path)) = true
    · simp only [findExactFileMatches, h1, if_false, h2, if_true,
        List.mem_singleton] at hm
      subst hm; rfl
    · simp [findExactFileMatches, h1, h2] at hm

/-- A file whose base name equals or contains the identifier
(case-insensitively) yields an exact match. -/
theorem findExactFileMatches_nonempty {id : Str}
    {index : List ProjectIndexer.FileIndex} {f : ProjectIndexer.FileIndex}
    (hf : f ∈ index)
    (hcase : lowerStr (basenameNoExt f.path) = lowerStr id ∨
      containsStr (lowerStr id) (lowerStr (basenameNoExt f.path)) = true) :
    ∃ m, m ∈ findExactFileMatches id index := by
  by_cases h1 : lowerStr (basenameNoExt f.path) = lowerStr id
  · refine ⟨⟨f, 1, MatchType.exact,
      String.toList "Exact file name match: " ++ basenameNoExt f.path⟩,
      List.mem_flatMap.mpr ⟨f, hf, ?_⟩⟩
    simp [h1]
  · have h2 : containsStr (lowerStr id) (lowerStr (basenameNoExt f.path)) = true := by
      tauto
    refine ⟨⟨f, (id.length : ℚ) / ((basenameNoExt f.path).length : ℚ) * (8/10),
      MatchType.exact, String.toList "File name contains: " ++ id⟩,
      List.mem_flatMap.mpr ⟨f, hf, ?_⟩⟩
    simp [h1, h2]

/-- C1: whenever some extracted identifier case-insensitively equals, or is
contained in, the base name (extension removed) of some indexed file,
`resolveFiles` returns exactly one `FileMatch`; that match is tagged
`exact`, its score is maximal among all exact-pass matches, and the result
is computed from the exact pass alone — the class, function, export and
fuzzy passes are skipped.  Stated over the identifier list produced by
`extractIdentifiers`, hence over every instruction. -/
theorem resolveFiles_exact_shortcircuit (identifiers : List Str)
    (index : List ProjectIndexer.FileIndex) (options : ResolverOptions)
    (h : ∃ id ∈ identifiers, ∃ f ∈ index,
      lowerStr (basenameNoExt f.path) = lowerStr id ∨
      containsStr (lowerStr id) (lowerStr (basenameNoExt f.path)) = true) :
    ∃ m : FileMatch,
      resolveFiles identifiers index options = [m] ∧
      m.matchType = MatchType.exact ∧
      m ∈ identifiers.flatMap (fun id => findExactFileMatches id index) ∧
      (∀ m' ∈ identifiers.flatMap (fun id => findExactFileMatches id index),
        m'.score ≤ m.score) ∧
      resolveFiles identifiers index options =
        (sortByScoreDesc
          (identifiers.flatMap (fun id => findExactFileMatches id index))).take 1 := by
  obtain ⟨id, hid, f, hf, hcase⟩ := h
  obtain ⟨m0, hm0⟩ := findExactFileMatches_nonempty hf hcase
  have hmE : m0 ∈ identifiers.flatMap (fun id => findExactFileMatches id index) :=
    List.mem_flatMap.mpr ⟨id, hid, hm0⟩
  have hEne : identifiers.flatMap (fun id => findExactFileMatches id index) ≠ [] :=
    List.ne_nil_of_mem hmE
  obtain ⟨b, t, hsort, hb, hmax⟩ := sortByScoreDesc_head_max hEne
  have hbranch : resolveFiles identifiers index options =
      (sortByScoreDesc
        (identifiers.flatMap (fun id => findExactFileMatches id index))).take 1 := by
    unfold resolveFiles
    have : (identifiers.flatMap (fun id => findExactFileMatches id index)).isEmpty
        = false := by
      simpa [List.isEmpty_iff] using hEne
    simp only [this, Bool.false_eq_true, if_false]
  have htype : b.matchType = MatchType.exact := by
    rcases List.mem_flatMap.mp hb with ⟨id', _, hb'⟩
    exact findExactFileMatches_type hb'
  refine ⟨b, ?_, htype, hb, hmax, hbranch⟩
  rw [hbranch, hsort]
  rfl

/-- Sample index for the C1 witness: `main.ts`, plus a helper file whose
`functions` list contains a same-named `main` — resolution must still return
only `main.ts`. -/
def mainRecord : ProjectIndexer.FileIndex :=
  ⟨String.toList "src/main.ts", String.toList "src/main.ts",
    [], [], [], [], [], [], String.toList "typescript", 0, 1⟩

/-- Helper record for the C1 witness. -/
def helperRecord : ProjectIndexer.FileIndex :=
  ⟨String.toList "src/util.ts", String.toList "src/util.ts",
    [], [], [], [String.toList "main"], [], [], String.toList "typescript", 0, 1⟩

theorem resolveFiles_exact_shortcircuit_witness :
    (∃ id ∈ [String.toList "main"], ∃ f ∈ [mainRecord, helperRecord],
      lowerStr (basenameNoExt f.path) = lowerStr id ∨
      containsStr (lowerStr id) (lowerStr (basenameNoExt f.path)) = true) ∧
    (∃ m : FileMatch,
      resolveFiles [String.toList "main"] [mainRecord, helperRecord]
        defaultResolverOptions = [m] ∧
      m.matchType = MatchType.exact ∧
      m ∈ [String.toList "main"].flatMap
        (fun id => findExactFileMatches id [mainRecord, helperRecord]) ∧
      (∀ m' ∈ [String.toList "main"].flatMap
        (fun id => findExactFileMatches id [mainRecord, helperRecord]),
        m'.score ≤ m.score) ∧
      resolveFiles [String.toList "main"] [mainRecord, helperRecord]
        defaultResolverOptions =
        (sortByScoreDesc
          ([String.toList "main"].flatMap
            (fun id => findExactFileMatches id [mainRecord, helperRecord]))).take 1) :=
  ⟨by decide,
    resolveFiles_exact_shortcircuit [String.toList "main"]
      [mainRecord, helperRecord] defaultResolverOptions (by decide)⟩

end SmartFileResolver

/-! ## C4: `SmartAgent.applyFileChanges` function-update fallback -/

namespace SmartAgent

/-- The first position (if any) at which the predicate holds on a suffix of
the string — the JavaScript regex engine's leftmost-match search. -/
def searchAt (p : Str → Bool) : Str → Option ℕ
  | [] => if p [] then some 0 else none
  | c :: cs => if p (c :: cs) then some 0 else (searchAt p cs).map (· + 1)

/-- First capture of the doc-name regex (a literal `*`, `\s*`, a `\w+` word
— the function name — then `\s*` and a dash) over the new content. -/
def extractDocFunctionName : Str → Option Str
  | [] => none
  | c :: rest =>
    if c = '*' then
      let s1 := rest.dropWhile isWS
      let name := s1.takeWhile isWordChar
      if name.isEmpty then extractDocFunctionName rest
      else
        let s2 := (s1.dropWhile isWordChar).dropWhile isWS
        match s2 with
        | '-' :: _ => some name
        | _ => extractDocFunctionName rest
    else extractDocFunctionName rest

/-- Does `(?:async\s*)?\(` match here? -/
def asyncParen (s : Str) : Bool :=
  (strStarts (String.toList "async") s &&
    strStarts ['('] ((s.drop 5).dropWhile isWS)) ||
  strStarts ['('] s

/-- Does `\s*[=:]?\s*(?:async\s*)?\(` match here? -/
def eqColonAsyncParen (s : Str) : Bool :=
  let s1 := s.dropWhile isWS
  let s2 := match s1 with
    | c :: r => if c = '=' || c = ':' then r.dropWhile isWS else s1
    | [] => s1
  asyncParen s2

/-- Declaration shape 1:
`(?:function|const|let|var)\s+NAME\s*[=:]?\s*(?:async\s*)?\(` at this
position. -/
def p1At (name s : Str) : Bool :=
  [String.toList "function", String.toList "const",
    String.toList "let", String.toList "var"].any (fun kw =>
    if strStarts kw s then
      let s1 := s.drop kw.length
      if (s1.takeWhile isWS).isEmpty then false
      else
        let s2 := s1.dropWhile isWS
        if strStarts name s2 then eqColonAsyncParen (s2.drop name.length)
        else false
    else false)

/-- Declaration shape 2: `NAME\s*[:=]\s*(?:async\s*)?\(` at this position. -/
def p2At (name s : Str) : Bool :=
  if strStarts name s then
    match (s.drop name.length).dropWhile isWS with
    | c :: r => if c = ':' || c = '=' then asyncParen (r.dropWhile isWS) else false
    | [] => false
  else false

/-- `NAME\s*\(` at this position. -/
def nameParen (name s : Str) : Bool :=
  strStarts name s && strStarts ['('] ((s.drop name.length).dropWhile isWS)

/-- `\s*(?:async\s*)?NAME\s*\(` at this position. -/
def p3Core (name s : Str) : Bool :=
  let s1 := s.dropWhile isWS
  (strStarts (String.toList "async") s1 &&
    nameParen name ((s1.drop 5).dropWhile isWS)) ||
  nameParen name s1

/-- Declaration shape 3:
`(?:public|private|protected)?\s*(?:async\s*)?NAME\s*\(` at this
position. -/
def p3At (name s : Str) : Bool :=
  ([String.toList "public", String.toList "private",
    String.toList "protected"].any (fun v =>
    if strStarts v s then p3Core name (s.drop v.length) else false)) ||
  p3Core name s

/-- The brace-depth forward scan of `findFunctionInCode` (lines 727–746):
from the match index, count `\x7b`/`\x7d` and stop one past the brace that
returns the depth to zero after at least one opener; `none` models the loop
running off the end (so `endIndex <= startIndex` and the function returns
`null`). -/
def braceScan : Str → ℕ → Bool → ℤ → Option ℕ
  | [], _, _, _ => none
  | c :: cs, i, found, count =>
    if c = Char.ofNat 123 then braceScan cs (i + 1) true (count + 1)
    else if c = Char.ofNat 125 then
      if found && count - 1 = 0 then some (i + 1)
      else braceScan cs (i + 1) found (count - 1)
    else braceScan cs (i + 1) found count

/-- The line containing offset `idx` (first `i` with
`currentPos <= idx && idx < lineEnd`, default 0). -/
def findLineStart : List Str → ℕ → ℕ → ℕ → ℕ
  | [], _, _, _ => 0
  | l :: ls, idx, i, cur =>
    if cur ≤ idx ∧ idx < cur + l.length + 1 then i
    else findLineStart ls idx (i + 1) (cur + l.length + 1)

/-- The line at which the scan for `endIndex` breaks (first `i` with
`currentPos <= idx && idx <= lineEnd`, default 0). -/
def findLineEnd : List Str → ℕ → ℕ → ℕ → ℕ
  | [], _, _, _ => 0
  | l :: ls, idx, i, cur =>
    if cur ≤ idx ∧ idx ≤ cur + l.length + 1 then i
    else findLineEnd ls idx (i + 1) (cur + l.length + 1)

/-- The inner `while` walking an existing doc comment upwards
(`docStartLine`). -/
def docWalkUp (lines : List Str) : ℕ → ℕ
  | 0 => 0
  | i + 1 =>
    let prev := trimStr (lines.getD i [])
    if strStarts (String.toList "*") prev || strStarts (String.toList "/**") prev
    then docWalkUp lines i
    else i + 1

/-- The backward scan for the documentation insertion point (lines
766–795), walking up from `functionStartLine - 1`: blank lines are skipped;
an existing doc comment is walked to its start; a plain code line stops the
scan at `functionStartLine`; `//`/`/*` lines (non-doc) are skipped. -/
def docInsertScan (lines : List Str) (functionStartLine : ℕ) : ℕ → ℕ
  | 0 => functionStartLine
  | i + 1 =>
    let line := trimStr (lines.getD i [])
    if line.isEmpty then docInsertScan lines functionStartLine i
    else if strStarts (String.toList "/**") line ||
        strStarts (String.toList "*") line then
      docWalkUp lines i
    else if !(strStarts (String.toList "//") line) &&
        !(strStarts (String.toList "/*") line) then
      functionStartLine
    else docInsertScan lines functionStartLine i

/-- The line range `[insertionPoint, functionEnd + 1)` the function-update
replacement spans (both positions at character 0). -/
structure FnRange where
  startLine : ℕ
  endLinePlusOne : ℕ
  deriving DecidableEq

/-- `SmartAgent.findFunctionInCode`: extract the function name from the doc
comment, locate its declaration by the three regex shapes in order, scan
forward for the function's textual end by brace depth, scan backward for
the doc insertion point, and produce the replacement range plus
`newContent.trim() + '\n' + functionContent`.  `none` models `return
null` (no name in the comment, no declaration shape found, or no brace
closure). -/
def findFunctionInCode (newContent documentText : Str) :
    Option (FnRange × Str) :=
  match extractDocFunctionName newContent with
  | none => none
  | some functionName =>
    let idx1 := searchAt (p1At functionName) documentText
    let idx2 := searchAt (p2At functionName) documentText
    let idx3 := searchAt (p3At functionName) documentText
    match idx1.orElse (fun _ => idx2.orElse (fun _ => idx3)) with
    | none => none
    | some startIndex =>
      match braceScan (documentText.drop startIndex) startIndex false 0 with
      | none => none
      | some endIndex =>
        let lines := splitLines documentText
        let functionStartLine := findLineStart lines startIndex 0 0
        let functionEndLine := findLineEnd lines endIndex 0 0
        let insertLine := docInsertScan lines functionStartLine functionStartLine
        let functionContent := (documentText.drop startIndex).take (endIndex - startIndex)
        some (⟨insertLine, functionEndLine + 1⟩,
          trimStr newContent ++ '\n' :: functionContent)

/-- Offset of the start of line `n` (character 0) in a document split into
`lines`; clamped by `take`/`drop` at use sites like the editor clamps
positions past the end. -/
def offsetOfLine (lines : List Str) (n : ℕ) : ℕ :=
  if n = 0 then 0 else (joinLines (lines.take n)).length + 1

/-- Replace the text between the starts of two lines. -/
def replaceLineRange (doc : Str) (fromLine toLine : ℕ) (content : Str) : Str :=
  let lines := splitLines doc
  doc.take (offsetOfLine lines fromLine) ++ content ++
    doc.drop (offsetOfLine lines toLine)

/-- The change kinds of `SmartAgent.parseFileChanges`/`applyFileChanges`. -/
inductive ChangeType where
  | replace | insert | function_update
  deriving DecidableEq

/-- The text produced by `SmartAgent.applyFileChanges` (lines 638–702): for
a `function_update`, replace the located function (range and content from
`findFunctionInCode`) or — when the locator returns `null` — fall back to
replacing the entire document with the new content; for a line-ranged
change, replace the computed offsets; otherwise replace the whole file. -/
def applyFileChanges (documentText newContent : Str)
    (startLine endLine : Option ℕ) (changeType : ChangeType) : Str :=
  let lines := splitLines documentText
  if changeType = ChangeType.function_update then
    match findFunctionInCode newContent documentText with
    | some (r, contentToInsert) =>
      replaceLineRange documentText r.startLine r.endLinePlusOne contentToInsert
    | none => newContent
  else
    match startLine, endLine with
    | some sl, some el =>
      let startOff := (joinLines (lines.take (sl - 1))).length +
        (if 1 < sl then 1 else 0)
      let endOff := (joinLines (lines.take el)).length
      documentText.take startOff ++ newContent ++ documentText.drop endOff
    | some sl, none =>
      let startOff := (joinLines (lines.take (sl - 1))).length +
        (if 1 < sl then 1 else 0)
      documentText.take startOff ++ newContent
    | none, _ => newContent

/-- C4: whenever the function locator fails — the doc comment names no
function matching any of the three declaration shapes in the document —
`applyFileChanges` for a `function_update` degrades to replacing the whole
document with the new content: the function is total (never throws) and the
edit is never dropped. -/
theorem applyFileChanges_function_update_fallback
    (documentText newContent : Str)
    (h : findFunctionInCode newContent documentText = none) :
    applyFileChanges documentText newContent none none
      ChangeType.function_update = newContent := by
  unfold applyFileChanges
  simp [h]

theorem applyFileChanges_function_update_fallback_witness :
    findFunctionInCode (String.toList "/** bar - adds numbers */")
      (String.toList "function foo() \x7b return 1; \x7d") = none ∧
    applyFileChanges (String.toList "function foo() \x7b return 1; \x7d")
      (String.toList "/** bar - adds numbers */") none none
      ChangeType.function_update = String.toList "/** bar - adds numbers */" :=
  ⟨by decide,
    applyFileChanges_function_update_fallback _ _ (by decide)⟩

end SmartAgent

/-! ## C2: `SmartAgent.parseFileChanges` -/

/-- First success of `f` over a list of alternatives (regex alternation /
optional-group backtracking order). -/
def firstSome {α β : Type} (f : α → Option β) : List α → Option β
  | [] => none
  | a :: as => (f a).orElse (fun _ => firstSome f as)

/-- Leftmost match: try the positional matcher at every position, left to
right (the regex engine's `exec` search). -/
def scanFrom {α : Type} (matchAt : Str → Option α) : Str → Option α
  | [] => matchAt []
  | c :: cs => (matchAt (c :: cs)).orElse (fun _ => scanFrom matchAt cs)

/-- All matches of a global regex: repeatedly take the leftmost match and
continue right after it.  Every matcher used consumes at least one
character, so `length + 1` fuel suffices. -/
def scanAllAux {α : Type} (matchAt : Str → Option (α × Str)) :
    ℕ → Str → List α
  | 0, _ => []
  | n + 1, s =>
    match scanFrom matchAt s with
    | none => []
    | some (a, rest) => a :: scanAllAux matchAt n rest

/-- All matches of a global regex over a string. -/
def scanAll {α : Type} (matchAt : Str → Option (α × Str)) (s : Str) : List α :=
  scanAllAux matchAt (s.length + 1) s

/-- Lazy `[\s\S]*?` up to the first occurrence of `sep`: the content before
it and the remainder after it. -/
def takeUntilSeq (sep : Str) : Str → Option (Str × Str)
  | [] => none
  | c :: cs =>
    if strStarts sep (c :: cs) then some ([], (c :: cs).drop sep.length)
    else (takeUntilSeq sep cs).map (fun p => (c :: p.1, p.2))

/-- Case-insensitive `startsWith` (the regex `i` flag). -/
def strStartsCI (p s : Str) : Bool := strStarts (lowerStr p) (lowerStr s)

/-- `\s*\n` with the greedy-star backtracking resolved: consume the
whitespace run up to and including its last newline; fail when the run
holds no newline. -/
def wsThenNewline (s : Str) : Option Str :=
  let run := s.takeWhile isWS
  let tailNoNl := run.reverse.takeWhile (fun c => c ≠ '\n')
  if tailNoNl.length = run.length then none
  else some (s.drop (run.length - tailNoNl.length))

/-- Greedy `(\d+)` with its numeric value. -/
def parseNat (s : Str) : Option (ℕ × Str) :=
  let ds := s.takeWhile isDigitCh
  if ds.isEmpty then none
  else some (ds.foldl (fun n c => 10 * n + (c.toNat - 48)) 0, s.drop ds.length)

namespace SmartAgent

/-- The optional line-number group of Pattern 1:
`\(lines?\s*(\d+)(?:\s*-\s*(\d+))?\)`, case-insensitively; the inner
optional dash group is tried first, falling back to a direct `)` after the
first number. -/
def parseLinesGroup (s : Str) : Option ((ℕ × Option ℕ) × Str) :=
  match s with
  | '(' :: r0 =>
    if strStartsCI (String.toList "line") r0 then
      let r1 := r0.drop 4
      let r2 := match r1 with
        | c :: t => if c.toLower = 's' then t else r1
        | [] => r1
      let r3 := r2.dropWhile isWS
      match parseNat r3 with
      | none => none
      | some (st, r4) =>
        let withDash : Option ((ℕ × Option ℕ) × Str) :=
          match r4.dropWhile isWS with
          | '-' :: r6 =>
            match parseNat (r6.dropWhile isWS) with
            | some (en, r7) =>
              match r7 with
              | ')' :: r8 => some ((st, some en), r8)
              | _ => none
            | none => none
          | _ => none
        match withDash with
        | some res => some res
        | none =>
          match r4 with
          | ')' :: r8 => some ((st, none), r8)
          | _ => none
    else none
  | _ => none

/-- What must follow the (lazily captured) file name inside the header:
`\s*(?:\(lines…\))?\s*\n`, returning the captured line numbers and the
remainder after the header's newline.  A parsed group whose tail fails
falls back to the group-omitted alternative, as the regex engine would. -/
def afterNameOk (rest : Str) : Option (Option ℕ × Option ℕ × Str) :=
  match parseLinesGroup (rest.dropWhile isWS) with
  | some ((st, en), r2) =>
    match wsThenNewline r2 with
    | some r3 => some (some st, en, r3)
    | none =>
      match wsThenNewline rest with
      | some r3 => some (none, none, r3)
      | none => none
  | none =>
    match wsThenNewline rest with
    | some r3 => some (none, none, r3)
    | none => none

/-- The lazy `([^\n]+?)` file-name capture: try the shortest nonempty
newline-free prefix whose remainder satisfies `afterNameOk`. -/
def findNameSplit (nameRev : Str) : Str → Option (Str × Option ℕ × Option ℕ × Str)
  | [] => none
  | c :: rest =>
    if c = '\n' then none
    else
      match afterNameOk rest with
      | some (st, en, rem) => some ((c :: nameRev).reverse, st, en, rem)
      | none => findNameSplit (c :: nameRev) rest

/-- The part of a Pattern-1 match after the `###?` hashes:
`\s*File:?\s*`, the lazily captured file name with its optional
`(lines X-Y)` group, the header newline, and the fenced block. -/
def matchP1Head (r0 : Str) : Option ((Str × Option ℕ × Option ℕ × Str) × Str) :=
  let r1 := r0.dropWhile isWS
  if strStartsCI (String.toList "file") r1 then
    let r2 := r1.drop 4
    let r3 := match r2 with
      | ':' :: t => t
      | _ => r2
    match findNameSplit [] (r3.dropWhile isWS) with
    | none => none
    | some (fileName, st, en, afterHeader) =>
      if strStarts fence afterHeader then
        match (afterHeader.drop 3).dropWhile isWordChar with
        | '\n' :: r6 =>
          (takeUntilSeq ('\n' :: fence) r6).map
            (fun p => ((fileName, st, en, p.1), p.2))
        | _ => none
      else none
  else none

/-- One Pattern-1 match
(`###?\s*File:?\s*([^\n]+?)\s*(?:\(lines…\))?\s*\n` + a fenced block) at
this position: captures (fileName, startLine?, endLine?, blockContent) and
the remainder after the closing fence.  The greedy optional third `#` is
tried before the two-hash alternative. -/
def matchP1At (s : Str) : Option ((Str × Option ℕ × Option ℕ × Str) × Str) :=
  let afterHashes : List Str :=
    (if strStarts (String.toList "###") s then [s.drop 3] else []) ++
    (if strStarts (String.toList "##") s then [s.drop 2] else [])
  firstSome matchP1Head afterHashes

/-- Per-line removal of `^\s*\d+:\s*` (the prompt's `N: ` line-number
prefixes). -/
def stripLineNumPrefix (l : Str) : Str :=
  let r1 := l.dropWhile isWS
  let ds := r1.takeWhile isDigitCh
  if ds.isEmpty then l
  else
    match r1.drop ds.length with
    | ':' :: r2 => r2.dropWhile isWS
    | _ => l

/-- `replace(/^\s*\d+:\s*(…)/gm, '')` over every line. -/
def stripLineNums (s : Str) : Str :=
  joinLines ((splitLines s).map stripLineNumPrefix)

/-- A change extracted by `parseFileChanges`. -/
structure FileChange where
  fileName : Str
  newContent : Str
  startLine : Option ℕ
  endLine : Option ℕ
  changeType : ChangeType
  deriving DecidableEq

/-- The Pattern-1 loop body: skip when file name or content is empty; a
block holding a `/**` … `*/` pair becomes a `function_update` (line
numbers discarded, `N: ` prefixes stripped); otherwise a `replace` whose
`endLine` defaults to `startLine + contentLines - 1` when absent (or
falsy). -/
def processP1 (m : Str × Option ℕ × Option ℕ × Str) : Option FileChange :=
  let fileName := trimStr m.1
  let content := m.2.2.2
  if fileName.isEmpty || content.isEmpty then none
  else
    let cleanFileName := trimStr (fileName.filter (fun c => !(c = btick || c = '*')))
    let cleanContent := trimStr content
    if containsStr (String.toList "/**") content &&
        containsStr (String.toList "*/") content then
      some ⟨cleanFileName, stripLineNums cleanContent, none, none,
        ChangeType.function_update⟩
    else
      match m.2.1 with
      | some st =>
        let contentLines := (splitLines content).length
        let endVal :=
          match m.2.2.1 with
          | some e => if e = 0 then st + contentLines - 1 else e
          | none => st + contentLines - 1
        some ⟨cleanFileName, cleanContent, some st, some endVal, ChangeType.replace⟩
      | none => some ⟨cleanFileName, cleanContent, none, none, ChangeType.replace⟩

/-- Pattern 2 (` ``` ` + word + newline + lazy content + `*/`): a fenced
block holding a doc comment. -/
def matchP2At (s : Str) : Option (Str × Str) :=
  if strStarts fence s then
    match (s.drop 3).dropWhile isWordChar with
    | '\n' :: r => takeUntilSeq (String.toList "*/") r
    | _ => none
  else none

/-- Pattern 2 loop body. -/
def processP2 (content : Str) : Option FileChange :=
  if !(trimStr content).isEmpty &&
      containsStr (String.toList "/**") content then
    let cleaned := stripLineNums (trimStr content)
    match extractDocFunctionName cleaned with
    | some nm => some ⟨nm, cleaned, none, none, ChangeType.function_update⟩
    | none => some ⟨String.toList "function_update", cleaned, none, none,
        ChangeType.function_update⟩
  else none

/-- Pattern 2.5 (`(\/\*\*…\*\/)\s*\n\s*(const|let|var|function)\s+(\w+)`,
case-insensitively): a doc comment directly above a declaration. -/
def matchP25At (s : Str) : Option ((Str × Str) × Str) :=
  if strStarts (String.toList "/**") s then
    match takeUntilSeq (String.toList "*/") (s.drop 3) with
    | none => none
    | some (inner, r1) =>
      let docContent := String.toList "/**" ++ inner ++ String.toList "*/"
      match wsThenNewline r1 with
      | none => none
      | some r2 =>
        let r3 := r2.dropWhile isWS
        match firstSome
            (fun kw => if strStartsCI kw r3 then some (r3.drop (List.length kw)) else none)
            [String.toList "const", String.toList "let", String.toList "var",
              String.toList "function"] with
        | none => none
        | some r4 =>
          if (r4.takeWhile isWS).isEmpty then none
          else
            let r5 := r4.dropWhile isWS
            let nm := r5.takeWhile isWordChar
            if nm.isEmpty then none
            else some ((docContent, nm), r5.drop nm.length)
  else none

/-- Pattern 2.5 loop body. -/
def processP25 (m : Str × Str) : Option FileChange :=
  if !(trimStr m.1).isEmpty && !m.2.isEmpty then
    some ⟨m.2, stripLineNums (trimStr m.1), none, none, ChangeType.function_update⟩
  else none

/-- Pattern 3 (` ``` ` + word + `\s*` + `//` + name line + content +
` ``` `): a code block opening with a file comment. -/
def matchP3At (s : Str) : Option ((Str × Str) × Str) :=
  if strStarts fence s then
    let r2 := ((s.drop 3).dropWhile isWordChar).dropWhile isWS
    if strStarts (String.toList "//") r2 then
      let r3 := (r2.drop 2).dropWhile isWS
      let nameCap := r3.takeWhile (fun c => c ≠ '\n')
      if nameCap.isEmpty then none
      else
        match r3.drop nameCap.length with
        | '\n' :: r4 => (takeUntilSeq fence r4).map (fun p => ((nameCap, p.1), p.2))
        | _ => none
    else none
  else none

/-- Pattern 3 loop body. -/
def processP3 (m : Str × Str) : Option FileChange :=
  let fn := trimStr m.1
  if !fn.isEmpty && !m.2.isEmpty then
    some ⟨fn, trimStr m.2, none, none, ChangeType.replace⟩
  else none

/-- Pattern 4 (any fenced block), the fallback. -/
def matchP4At (s : Str) : Option (Str × Str) :=
  if strStarts fence s then
    match (s.drop 3).dropWhile isWordChar with
    | '\n' :: r => takeUntilSeq fence r
    | _ => none
  else none

/-- Pattern 4 loop body: keep blocks with nonempty trimmed content under
synthetic names `modified_file_N` (numbering only the kept blocks). -/
def p4Changes (blocks : List Str) : List FileChange :=
  (blocks.filter (fun c => !(trimStr c).isEmpty)).mapIdx
    (fun i c =>
      ⟨String.toList ("modified_file_" ++ toString (i + 1)), trimStr c,
        none, none, ChangeType.replace⟩)

/-- `SmartAgent.parseFileChanges` (lines 471–636): Pattern 1 (file headers
with optional line numbers), then — each only when everything before it
produced no change — Pattern 2 (doc comment in a fenced block),
Pattern 2.5 (doc comment above a declaration), Pattern 3 (block with a
file comment), Pattern 4 (bare blocks with synthetic names). -/
def parseFileChanges (aiResponse : Str) : List FileChange :=
  let c1 := (scanAll matchP1At aiResponse).filterMap processP1
  if !c1.isEmpty then c1
  else
    let c2 := (scanAll matchP2At aiResponse).filterMap processP2
    if !c2.isEmpty then c2
    else
      let c25 := (scanAll matchP25At aiResponse).filterMap processP25
      if !c25.isEmpty then c25
      else
        let c3 := (scanAll matchP3At aiResponse).filterMap processP3
        if !c3.isEmpty then c3
        else p4Changes (scanAll matchP4At aiResponse)

end SmartAgent


theorem takeUntilSeq_append (sep body tail : Str) (hsep : sep ≠ [])
    (hno : ∀ u v, body = u ++ v → v ≠ [] →
      strStarts sep (v ++ sep ++ tail) = false) :
    takeUntilSeq sep (body ++ sep ++ tail) = some (body, tail) := by
  induction body with
  | nil =>
    rcases hs : sep with _ | ⟨s0, ss⟩
    · exact absurd hs hsep
    · have hst : strStarts sep (sep ++ tail) = true :=
        (strStarts_iff _ _).mpr ⟨tail, rfl⟩
    -- at the head of `sep ++ tail` the separator matches and nothing precedes it
      subst hs
      simp only [List.nil_append, List.cons_append] at hst ⊢
      rw [takeUntilSeq]
      simp only [← List.cons_append] at hst ⊢
      rw [hst]
      simp [List.drop_left]
  | cons b body' ih =>
    have hhead : strStarts sep ((b :: body') ++ sep ++ tail) = false :=
      hno [] (b :: body') rfl (by simp)
    have ih' : takeUntilSeq sep (body' ++ sep ++ tail) = some (body', tail) :=
      ih (fun u v huv hv => hno (b :: u) v (by simp [huv]) hv)
    have hcons : (b :: body') ++ sep ++ tail = b :: (body' ++ sep ++ tail) := by
      simp
    rw [hcons, takeUntilSeq, ← hcons, hhead]
    simp only [Bool.false_eq_true, if_false, ih']
    rfl


theorem append_nl_eq {A B u v : Str} (hA : '\n' ∉ A)
    (he : A ++ '\n' :: B = u ++ '\n' :: v) :
    (u = A ∧ v = B) ∨ (∃ c', u = A ++ '\n' :: c' ∧ B = c' ++ '\n' :: v) := by
  rcases List.append_eq_append_iff.mp he with ⟨a, ha1, ha2⟩ | ⟨c, hc1, hc2⟩
  · cases a with
    | nil =>
      refine Or.inl ⟨by simpa using ha1, ?_⟩
      have := ha2.symm
      simp only [List.nil_append] at this
      exact (List.cons.injEq _ _ _ _ ▸ this).2
    | cons x a' =>
      simp only [List.cons_append] at ha2
      have hx : '\n' = x := (List.cons.injEq _ _ _ _ ▸ ha2).1
      have hB : B = a' ++ '\n' :: v := (List.cons.injEq _ _ _ _ ▸ ha2).2
      exact Or.inr ⟨a', by simp [ha1, ← hx], hB⟩
  · cases c with
    | nil =>
      simp only [List.nil_append] at hc2
      refine Or.inl ⟨by simpa using hc1.symm, ?_⟩
      exact (List.cons.injEq _ _ _ _ ▸ hc2).2
    | cons x c' =>
      simp only [List.cons_append] at hc2
      have hx : '\n' = x := (List.cons.injEq _ _ _ _ ▸ hc2).1
      exfalso
      apply hA
      rw [hc1, ← hx]
      simp

theorem body_nl_suffix {L1 L2 L3 u v : Str} (h1 : '\n' ∉ L1) (h2 : '\n' ∉ L2)
    (h3 : '\n' ∉ L3)
    (he : L1 ++ '\n' :: (L2 ++ '\n' :: L3) = u ++ '\n' :: v) :
    v = L2 ++ '\n' :: L3 ∨ v = L3 := by
  rcases append_nl_eq h1 he with ⟨_, hv⟩ | ⟨c', _, hB⟩
  · exact Or.inl hv
  · rcases append_nl_eq h2 hB with ⟨_, hv⟩ | ⟨c'', _, hL3⟩
    · exact Or.inr hv
    · exfalso
      apply h3
      rw [hL3]
      simp

theorem strStarts_fence_append {L X : Str} (h : strStarts fence L = false) :
    strStarts fence (L ++ '\n' :: X) = false := by
  have hb : ¬ (btick = '\n') := by decide
  cases L with
  | nil => simp [fence, strStarts, hb]
  | cons a t1 =>
    cases t1 with
    | nil => simp [fence, strStarts, hb]
    | cons a2 t2 =>
      cases t2 with
      | nil => simp [fence, strStarts, hb]
      | cons a3 t3 =>
        simp only [fence, strStarts, List.cons_append] at h ⊢
        simpa using h

theorem scanFrom_of_matchAt {α : Type} {matchAt : Str → Option α} {s : Str}
    {r : α} (h : matchAt s = some r) : scanFrom matchAt s = some r := by
  cases s with
  | nil => simpa [scanFrom] using h
  | cons c cs =>
    show (matchAt (c :: cs)).orElse (fun _ => scanFrom matchAt cs) = some r
    rw [h]
    rfl

theorem scanAllAux_nil {α : Type} {matchAt : Str → Option (α × Str)}
    (hnil : matchAt [] = none) (n : ℕ) : scanAllAux matchAt n [] = [] := by
  cases n with
  | zero => rfl
  | succ n =>
    show (match scanFrom matchAt [] with
      | none => []
      | some (a, rest) => a :: scanAllAux matchAt n rest) = []
    have : scanFrom matchAt [] = none := by simpa [scanFrom] using hnil
    rw [this]

theorem scanAll_single {α : Type} {matchAt : Str → Option (α × Str)} {s : Str}
    {a : α} (h : scanFrom matchAt s = some (a, []))
    (hnil : matchAt [] = none) : scanAll matchAt s = [a] := by
  show scanAllAux matchAt (s.length + 1) s = [a]
  rw [scanAllAux, h]
  show a :: scanAllAux matchAt s.length [] = [a]
  rw [scanAllAux_nil hnil]

namespace SmartAgent

theorem matchP1Head_eval {tail body rest : Str}
    (h : takeUntilSeq ('\n' :: fence) tail = some (body, rest)) :
    matchP1Head
      ((String.toList "### File: x.ts (lines 3-5)\n" ++ fence ++ '\n' :: tail).drop 3) =
      some ((String.toList "x.ts", some 3, some 5, body), rest) := by
  have key : matchP1Head
      ((String.toList "### File: x.ts (lines 3-5)\n" ++ fence ++ '\n' :: tail).drop 3) =
      (takeUntilSeq ('\n' :: fence) tail).map
        (fun p => ((String.toList "x.ts", some 3, some 5, p.1), p.2)) := rfl
  rw [key, h]
  rfl

theorem matchP1At_eval {tail body rest : Str}
    (h : takeUntilSeq ('\n' :: fence) tail = some (body, rest)) :
    matchP1At (String.toList "### File: x.ts (lines 3-5)\n" ++ fence ++ '\n' :: tail) =
      some ((String.toList "x.ts", some 3, some 5, body), rest) := by
  have hstep : matchP1At
      (String.toList "### File: x.ts (lines 3-5)\n" ++ fence ++ '\n' :: tail) =
      (matchP1Head
        ((String.toList "### File: x.ts (lines 3-5)\n" ++ fence ++ '\n' :: tail).drop 3)).orElse
        (fun _ => firstSome matchP1Head
          [(String.toList "### File: x.ts (lines 3-5)\n" ++ fence ++ '\n' :: tail).drop 2]) :=
    rfl
  rw [hstep, matchP1Head_eval h]
  rfl

end SmartAgent

theorem takeUntilSeq_body {L1 L2 L3 : Str} (h1 : '\n' ∉ L1) (h2 : '\n' ∉ L2)
    (h3 : '\n' ∉ L3) (hf2 : strStarts fence L2 = false)
    (hf3 : strStarts fence L3 = false) :
    takeUntilSeq ('\n' :: fence)
      ((L1 ++ '\n' :: (L2 ++ '\n' :: L3)) ++ '\n' :: fence) =
      some (L1 ++ '\n' :: (L2 ++ '\n' :: L3), []) := by
  have main := takeUntilSeq_append ('\n' :: fence)
    (L1 ++ '\n' :: (L2 ++ '\n' :: L3)) [] (by simp) ?hno
  · simpa using main
  case hno =>
    intro u v huv hv
    cases v with
    | nil => exact absurd rfl hv
    | cons w v' =>
      by_cases hw : w = '\n'
      · subst hw
        have hsuf := body_nl_suffix h1 h2 h3 huv
        have hred : strStarts ('\n' :: fence)
            (('\n' :: v') ++ ('\n' :: fence) ++ []) =
            strStarts fence (v' ++ '\n' :: fence) := by
          simp [strStarts]
        rw [hred]
        rcases hsuf with hv' | hv'
        · subst hv'
          have : (L2 ++ '\n' :: L3) ++ '\n' :: fence =
              L2 ++ '\n' :: (L3 ++ '\n' :: fence) := by simp
          rw [this]
          exact strStarts_fence_append hf2
        · subst hv'
          exact strStarts_fence_append hf3
      · have hne : ¬ ('\n' = w) := fun hh => hw hh.symm
        simp [strStarts, hne]

namespace SmartAgent

theorem processP1_eval {body : Str} (hne : body ≠ [])
    (hdoc : (containsStr (String.toList "/**") body &&
      containsStr (String.toList "*/") body) = false) :
    processP1 (String.toList "x.ts", some 3, some 5, body) =
      some ⟨String.toList "x.ts", trimStr body, some 3, some 5,
        ChangeType.replace⟩ := by
  have hisE : body.isEmpty = false := by
    simpa [List.isEmpty_iff] using hne
  have hx : (trimStr (String.toList "x.ts")).isEmpty = false := rfl
  have hclean : trimStr ((trimStr (String.toList "x.ts")).filter
      (fun c => !(c = btick || c = '*'))) = String.toList "x.ts" := rfl
  unfold processP1
  simp only [hisE, hx, hclean, hdoc, Bool.or_false, Bool.false_eq_true,
    if_false]
  simp

end SmartAgent

namespace SmartAgent

/-- C2 (counterexample): a reply whose three-line block begins with an
indented line is not returned verbatim — Pattern 1 trims the block content,
so the extracted replacement drops the leading indentation of the first
line and is not equal to the three block lines. -/
theorem parseFileChanges_trim_counterexample :
    (parseFileChanges
      (String.toList "### File: x.ts (lines 3-5)\n```\n  a\nb\nc\n```")).map
      FileChange.newContent = [String.toList "a\nb\nc"] ∧
    String.toList "a\nb\nc" ≠ String.toList "  a\nb\nc" := by
  decide

/-- C2 (amended): for a model reply consisting of the header
`### File: x.ts (lines 3-5)` followed by a fenced block of exactly three
plain (non-doc-comment) code lines, `parseFileChanges` extracts exactly one
change: file name `x.ts`, `startLine = 3`, `endLine = 5`, change type
`replace`, and a replacement equal to the **trimmed** concatenation of the
three block lines (hence equal to the lines themselves exactly when the
first line starts and the last line ends with non-whitespace). -/
theorem parseFileChanges_line_echo (L1 L2 L3 : Str)
    (h1 : '\n' ∉ L1) (h2 : '\n' ∉ L2) (h3 : '\n' ∉ L3)
    (hf2 : strStarts fence L2 = false) (hf3 : strStarts fence L3 = false)
    (hdoc : (containsStr (String.toList "/**") (L1 ++ '\n' :: (L2 ++ '\n' :: L3)) &&
      containsStr (String.toList "*/") (L1 ++ '\n' :: (L2 ++ '\n' :: L3))) = false) :
    parseFileChanges
      (String.toList "### File: x.ts (lines 3-5)\n" ++ fence ++ '\n' ::
        ((L1 ++ '\n' :: (L2 ++ '\n' :: L3)) ++ '\n' :: fence)) =
      [⟨String.toList "x.ts", trimStr (L1 ++ '\n' :: (L2 ++ '\n' :: L3)),
        some 3, some 5, ChangeType.replace⟩] := by
  have htus : takeUntilSeq ('\n' :: fence)
      ((L1 ++ '\n' :: (L2 ++ '\n' :: L3)) ++ '\n' :: fence) =
      some (L1 ++ '\n' :: (L2 ++ '\n' :: L3), []) :=
    takeUntilSeq_body h1 h2 h3 hf2 hf3
  have hm := matchP1At_eval htus
  have hscan : scanAll matchP1At
      (String.toList "### File: x.ts (lines 3-5)\n" ++ fence ++ '\n' ::
        ((L1 ++ '\n' :: (L2 ++ '\n' :: L3)) ++ '\n' :: fence)) =
      [(String.toList "x.ts", some 3, some 5, L1 ++ '\n' :: (L2 ++ '\n' :: L3))] :=
    scanAll_single (scanFrom_of_matchAt hm) rfl
  have hne : L1 ++ '\n' :: (L2 ++ '\n' :: L3) ≠ [] := by simp
  have hproc := processP1_eval hne hdoc
  unfold parseFileChanges
  rw [hscan]
  simp only [List.filterMap_cons, List.filterMap_nil, hproc]
  simp

end SmartAgent

namespace SmartAgent

theorem parseFileChanges_line_echo_witness :
    parseFileChanges
      (String.toList "### File: x.ts (lines 3-5)\n" ++ fence ++ '\n' ::
        ((String.toList "alpha" ++ '\n' :: (String.toList "beta" ++ '\n' ::
          String.toList "gamma")) ++ '\n' :: fence)) =
      [⟨String.toList "x.ts",
        trimStr (String.toList "alpha" ++ '\n' :: (String.toList "beta" ++ '\n' ::
          String.toList "gamma")),
        some 3, some 5, ChangeType.replace⟩] :=
  parseFileChanges_line_echo (String.toList "alpha") (String.toList "beta")
    (String.toList "gamma") (by decide) (by decide) (by decide) (by decide)
    (by decide) (by decide)

end SmartAgent

/-! ## C3: `OutputParser.parseMultiFileResponse` -/

namespace OutputParser

/-- The change kinds of the `MultiFileChange` interface. -/
inductive MFChangeType where
  | create | modify | delete
  deriving DecidableEq

/-- The `MultiFileChange` interface (`outputParser`): the parser fills
`filePath`, `type`, `content` and `language`; the optional fields stay
unset. -/
structure MultiFileChange where
  filePath : Str
  type : MFChangeType
  content : Str
  language : Str
  originalContent : Option Str
  startLine : Option ℕ
  endLine : Option ℕ
  deriving DecidableEq

/-- `OutputParser.detectLanguageFromPath`: extension (after the last dot,
lowercased) looked up in the closed language table, defaulting to
`text`. -/
def detectLanguageFromPath (filePath : Str) : Str :=
  let ext := lowerStr ((splitOnCh '.' filePath).getLastD [])
  if ext = String.toList "js" then String.toList "javascript"
  else if ext = String.toList "ts" then String.toList "typescript"
  else if ext = String.toList "py" then String.toList "python"
  else if ext = String.toList "java" then String.toList "java"
  else if ext = String.toList "cpp" then String.toList "cpp"
  else if ext = String.toList "c" then String.toList "c"
  else if ext = String.toList "cs" then String.toList "csharp"
  else if ext = String.toList "php" then String.toList "php"
  else if ext = String.toList "rb" then String.toList "ruby"
  else if ext = String.toList "go" then String.toList "go"
  else if ext = String.toList "rs" then String.toList "rust"
  else if ext = String.toList "swift" then String.toList "swift"
  else if ext = String.toList "kt" then String.toList "kotlin"
  else String.toList "text"

/-- Modelled from the spec: the fenced-block interiors of the three
`parseMultiFileResponse` regexes are corrupted in the scraped source (six
literal backticks); the pattern shapes are reconstructed from spec §4.4 and
Scenario C together with the surviving capture usages.  Pattern 1: an
optional `##?` heading, `File:` or `Path:`, the path line, then a fenced
block (`match[1]` path, `match[2]` language, `match[3]` content); the
change type is always `modify`. -/
def matchMFHeaderAt (r : Str) : Option (MultiFileChange × Str) :=
  let r1 :=
    if strStarts (String.toList "##") r then (r.drop 2).dropWhile isWS
    else if strStarts (String.toList "#") r then (r.drop 1).dropWhile isWS
    else r
  let afterKw :=
    if strStarts (String.toList "File:") r1 then some (r1.drop 5)
    else if strStarts (String.toList "Path:") r1 then some (r1.drop 5)
    else none
  match afterKw with
  | none => none
  | some r2 =>
    let r3 := r2.dropWhile isWS
    let path := r3.takeWhile (fun c => c ≠ '\n')
    if path.isEmpty then none
    else
      match r3.drop path.length with
      | '\n' :: r4 =>
        if strStarts fence r4 then
          let lang := (r4.drop 3).takeWhile isWordChar
          match (r4.drop 3).drop lang.length with
          | '\n' :: r5 =>
            (takeUntilSeq fence r5).map (fun p =>
              let filePath := trimStr path
              (⟨filePath, MFChangeType.modify, trimStr p.1,
                if lang.isEmpty then detectLanguageFromPath filePath else lang,
                none, none, none⟩, p.2))
          | _ => none
        else none
      | _ => none

/-- Pattern 1 carries the regex's `(?:^|\n)` anchor: a match elsewhere than
the string start must be preceded by a newline. -/
def matchMFHeaderAtNL (t : Str) : Option (MultiFileChange × Str) :=
  match t with
  | '\n' :: r => matchMFHeaderAt r
  | _ => none

/-- All Pattern-1 matches: the string start may match directly; later
matches sit after a newline. -/
def parseMultiFileP1 (response : Str) : List MultiFileChange :=
  match matchMFHeaderAt response with
  | some (c, rest) => c :: scanAll matchMFHeaderAtNL rest
  | none => scanAll matchMFHeaderAtNL response

/-- Modelled from the spec (corrupted regex): Pattern 2, a "simple code
block with a file comment": a fenced block whose first line is
`// <path>` (`match[1]` language, `match[2]` path, `match[3]` content);
type `modify`, language taken from the tag as-is. -/
def matchMFSimpleBody (lang r : Str) : Option (MultiFileChange × Str) :=
  if strStarts (String.toList "//") r then
    let r2 := (r.drop 2).dropWhile isWS
    let path := r2.takeWhile (fun c => c ≠ '\n')
    if path.isEmpty then none
    else
      match r2.drop path.length with
      | '\n' :: r3 =>
        (takeUntilSeq fence r3).map (fun p =>
          (⟨trimStr path, MFChangeType.modify, trimStr p.1, lang,
            none, none, none⟩, p.2))
      | _ => none
  else none

/-- Pattern 2's position matcher: the fence, its language tag, a newline,
then the `// <path>` body. -/
def matchMFSimpleAt (t : Str) : Option (MultiFileChange × Str) :=
  if strStarts fence t then
    let lang := (t.drop 3).takeWhile isWordChar
    match (t.drop 3).drop lang.length with
    | '\n' :: r => matchMFSimpleBody lang r
    | _ => none
  else none

/-- Modelled from the spec (corrupted regex): Pattern 3, the
`(?:CREATE|MODIFY|DELETE)\s+([^\n]+)\n` + fenced block shape, matched
case-insensitively; the change type is the matched action lowercased. -/
def matchMFActionKw (kwact : Str × MFChangeType) (t : Str) :
    Option (MultiFileChange × Str) :=
  if strStartsCI kwact.1 t then
      let r1 := t.drop (List.length kwact.1)
      if (r1.takeWhile isWS).isEmpty then none
      else
        let r2 := r1.dropWhile isWS
        let path := r2.takeWhile (fun c => c ≠ '\n')
        if path.isEmpty then none
        else
          match r2.drop path.length with
          | '\n' :: r3 =>
            if strStarts fence r3 then
              let lang := (r3.drop 3).takeWhile isWordChar
              match (r3.drop 3).drop lang.length with
              | '\n' :: r4 =>
                (takeUntilSeq fence r4).map (fun p =>
                  let filePath := trimStr path
                  (⟨filePath, kwact.2, trimStr p.1,
                    if lang.isEmpty then detectLanguageFromPath filePath else lang,
                    none, none, none⟩, p.2))
              | _ => none
            else none
          | _ => none
  else none

/-- Pattern 3 (continued): the three action alternatives tried in order. -/
def matchMFActionAt (t : Str) : Option (MultiFileChange × Str) :=
  firstSome (fun kwact => matchMFActionKw kwact t)
    [(String.toList "CREATE", MFChangeType.create),
      (String.toList "MODIFY", MFChangeType.modify),
      (String.toList "DELETE", MFChangeType.delete)]

/-- `OutputParser.parseMultiFileResponse` (lines 1937–1989): the three
pattern loops run one after the other — none is guarded by the previous
one's result — and their changes are concatenated. -/
def parseMultiFileResponse (response : Str) : List MultiFileChange :=
  parseMultiFileP1 response ++
  scanAll matchMFSimpleAt response ++
  scanAll matchMFActionAt response

end OutputParser


theorem scanFrom_none {α : Type} {matchAt : Str → Option α} {s : Str}
    (h : ∀ t, t <:+ s → matchAt t = none) : scanFrom matchAt s = none := by
  induction s with
  | nil => simpa [scanFrom] using h [] List.nil_suffix
  | cons c cs ih =>
    show (matchAt (c :: cs)).orElse (fun _ => scanFrom matchAt cs) = none
    rw [h (c :: cs) (List.suffix_refl _)]
    exact ih (fun t ht => h t (ht.trans (List.suffix_cons c cs)))

theorem scanAll_of_none {α : Type} {matchAt : Str → Option (α × Str)} {s : Str}
    (h : scanFrom matchAt s = none) : scanAll matchAt s = [] := by
  show scanAllAux matchAt (s.length + 1) s = []
  rw [scanAllAux, h]

theorem suffix_append_cases {t X rest : Str} (h : t <:+ X ++ rest) :
    t <:+ rest ∨ ∃ x', x' <:+ X ∧ x' ≠ [] ∧ t = x' ++ rest := by
  rcases h with ⟨u, hu⟩
  rcases List.append_eq_append_iff.mp hu with ⟨a, ha1, ha2⟩ | ⟨c, hc1, hc2⟩
  · cases a with
    | nil => exact Or.inl (by simp [ha2])
    | cons x a' =>
      exact Or.inr ⟨x :: a', ⟨u, ha1.symm⟩, by simp, ha2⟩
  · exact Or.inl ⟨c, hc2.symm⟩

/-- A suffix beginning with a fence cannot begin inside a backtick-free
segment. -/
theorem peel_no_btick {X rest t : Str} (hX : ∀ c ∈ X, ¬ c = btick)
    (h : t <:+ X ++ rest) (hf : strStarts fence t = true) : t <:+ rest := by
  rcases suffix_append_cases h with hl | ⟨x', hx', hne, rfl⟩
  · exact hl
  · cases x' with
    | nil => exact absurd rfl hne
    | cons c cs =>
      have hc : ¬ (btick = c) := fun hh => hX c (hx'.subset (by simp)) hh.symm
      simp [fence, strStarts, hc] at hf

/-- A fence-started suffix of `fence ++ rest` (where `rest` does not begin
with a backtick) is the whole of `fence ++ rest` or lies in `rest`. -/
theorem peel_fence {rest t : Str} (hr : strStarts [btick] rest = false)
    (h : t <:+ fence ++ rest) (hf : strStarts fence t = true) :
    t = fence ++ rest ∨ t <:+ rest := by
  rcases suffix_append_cases h with hl | ⟨x', hx', hne, rfl⟩
  · exact Or.inr hl
  · have h1 : x' <:+ btick :: btick :: btick :: [] := hx'
    have hnb : ∀ rc rr, rest = rc :: rr → ¬ (btick = rc) := by
      intro rc rr hrest hh
      rw [hrest] at hr
      simp [strStarts, ← hh] at hr
    rcases List.suffix_cons_iff.mp h1 with rfl | h2
    · exact Or.inl rfl
    rcases List.suffix_cons_iff.mp h2 with rfl | h3
    · exfalso
      cases hrest : rest with
      | nil => rw [hrest] at hf; simp [fence, strStarts] at hf
      | cons rc rr =>
        rw [hrest] at hf
        simp [fence, strStarts, hnb rc rr hrest] at hf
    rcases List.suffix_cons_iff.mp h3 with rfl | h4
    · exfalso
      cases hrest : rest with
      | nil => rw [hrest] at hf; simp [fence, strStarts] at hf
      | cons rc rr =>
        rw [hrest] at hf
        simp [fence, strStarts, hnb rc rr hrest] at hf
    · exact absurd (List.suffix_nil.mp h4) hne

/-- A fence-started suffix of a bare fence is the fence itself. -/
theorem peel_fence_end {t : Str} (h : t <:+ fence)
    (hf : strStarts fence t = true) : t = fence := by
  have hcases := @peel_fence [] t rfl (by simpa using h) hf
  rcases hcases with h1 | h2
  · simpa using h1
  · exfalso
    have ht : t = [] := List.suffix_nil.mp h2
    subst ht
    simp [fence, strStarts] at hf

theorem trimStr_append_nl (s : Str) : trimStr (s ++ ['\n']) = trimStr s := by
  unfold trimStr
  rw [List.dropWhile_append]
  by_cases he : (s.dropWhile isWS).isEmpty = true
  · simp only [he, if_true]
    have hs : s.dropWhile isWS = [] := by simpa using he
    simp [hs, List.dropWhile, isWS]
  · simp only [he, if_false]
    simp [List.dropWhile, isWS]

theorem mem_joinLines {c : Char} {ls : List Str} (h : c ∈ joinLines ls) :
    c = '\n' ∨ ∃ l ∈ ls, c ∈ l := by
  induction ls with
  | nil => simp [joinLines] at h
  | cons l ls ih =>
    cases ls with
    | nil =>
      simp only [joinLines] at h
      exact Or.inr ⟨l, by simp, h⟩
    | cons l2 ls2 =>
      simp only [joinLines, List.mem_append, List.mem_cons] at h
      rcases h with hl | hc | hrest
      · exact Or.inr ⟨l, by simp, hl⟩
      · exact Or.inl hc
      · rcases ih hrest with hnl | ⟨l', hl', hc'⟩
        · exact Or.inl hnl
        · exact Or.inr ⟨l', by simp [hl'], hc'⟩

theorem strStarts_twoslash_append {L X : Str}
    (h : strStarts (String.toList "//") L = false) :
    strStarts (String.toList "//") (L ++ '\n' :: X) = false := by
  have hs : ¬ ('/' = '\n') := by decide
  cases L with
  | nil => simp [strStarts, hs]
  | cons a t1 =>
    cases t1 with
    | nil =>
      by_cases ha : '/' = a
      · simp [strStarts, ← ha, hs]
      · simp [strStarts, ha]
    | cons a2 t2 =>
      simp only [List.cons_append]
      simp only [strStarts] at h ⊢
      simpa using h

theorem containsStr_lower_suffix {q t s : Str} (hsuf : t <:+ s)
    (hq : strStarts q (lowerStr t) = true) :
    containsStr q (lowerStr s) = true := by
  rcases hsuf with ⟨u, rfl⟩
  rcases (strStarts_iff _ _).mp hq with ⟨w, hw⟩
  refine (containsStr_iff _ _).mpr ⟨lowerStr u, w, ?_⟩
  have : lowerStr (u ++ t) = lowerStr u ++ lowerStr t := by
    simp [lowerStr]
  rw [this, hw, List.append_assoc]

namespace OutputParser

/-- The reply family of Scenario C: two `File:` headers, each followed by a
bare fenced block holding the respective body. -/
def twoFileReply (A B : Str) : Str :=
  String.toList "File: a.ts\n" ++ (fence ++ (('\n' :: (A ++ ['\n'])) ++ (fence ++
    (('\n' :: String.toList "File: b.ts\n") ++ (fence ++
      (('\n' :: (B ++ ['\n'])) ++ fence))))))

/-- Pattern 3 finds nothing in a reply whose lowercase text holds none of
the three action keywords. -/
theorem matchMFActionAt_none {s t : Str}
    (hkw : ∀ kw ∈ [String.toList "create", String.toList "modify",
      String.toList "delete"], containsStr kw (lowerStr s) = false)
    (hsuf : t <:+ s) : matchMFActionAt t = none := by
  have hgen : ∀ KW kw : Str, lowerStr KW = kw →
      containsStr kw (lowerStr s) = false → strStartsCI KW t = false := by
    intro KW kw hlow hcon
    by_contra hb
    have hb' : strStarts kw (lowerStr t) = true := by
      have := (by simpa using hb : strStartsCI KW t = true)
      simpa [strStartsCI, hlow] using this
    rw [containsStr_lower_suffix hsuf hb'] at hcon
    simp at hcon
  have hkwnone : ∀ kwact : Str × MFChangeType, strStartsCI kwact.1 t = false →
      matchMFActionKw kwact t = none := by
    intro kwact hf
    unfold matchMFActionKw
    rw [hf]
    simp
  have h1 := hkwnone (String.toList "CREATE", MFChangeType.create)
    (hgen (String.toList "CREATE") (String.toList "create") rfl
      (hkw (String.toList "create") (by simp)))
  have h2 := hkwnone (String.toList "MODIFY", MFChangeType.modify)
    (hgen (String.toList "MODIFY") (String.toList "modify") rfl
      (hkw (String.toList "modify") (by simp)))
  have h3 := hkwnone (String.toList "DELETE", MFChangeType.delete)
    (hgen (String.toList "DELETE") (String.toList "delete") rfl
      (hkw (String.toList "delete") (by simp)))
  unfold matchMFActionAt firstSome
  rw [h1]
  show firstSome (fun kwact => matchMFActionKw kwact t)
    [(String.toList "MODIFY", MFChangeType.modify),
      (String.toList "DELETE", MFChangeType.delete)] = none
  unfold firstSome
  rw [h2]
  show firstSome (fun kwact => matchMFActionKw kwact t)
    [(String.toList "DELETE", MFChangeType.delete)] = none
  unfold firstSome
  rw [h3]
  rfl

end OutputParser

namespace OutputParser

theorem matchMFSimpleBody_none {lang r : Str}
    (hr : strStarts (String.toList "//") r = false) :
    matchMFSimpleBody lang r = none := by
  unfold matchMFSimpleBody
  rw [hr]
  simp

theorem matchMFSimpleAt_site {r : Str}
    (hr : strStarts (String.toList "//") r = false) :
    matchMFSimpleAt (fence ++ '\n' :: r) = none := by
  have key : matchMFSimpleAt (fence ++ '\n' :: r) = matchMFSimpleBody [] r := rfl
  rw [key]
  exact matchMFSimpleBody_none hr

theorem joinLines_slash_append (ls : List Str) (X : Str)
    (h : ∀ l ∈ ls, strStarts (String.toList "//") l = false) :
    strStarts (String.toList "//") (joinLines ls ++ '\n' :: X) = false := by
  cases ls with
  | nil =>
    have hs : ¬ ('/' = '\n') := by decide
    simp [joinLines, strStarts, hs]
  | cons l ls' =>
    cases ls' with
    | nil => simpa [joinLines] using strStarts_twoslash_append (h l (by simp))
    | cons l2 ls'' =>
      have hj : joinLines (l :: l2 :: ls'') ++ '\n' :: X =
          l ++ '\n' :: (joinLines (l2 :: ls'') ++ '\n' :: X) := by
        simp [joinLines]
      rw [hj]
      exact strStarts_twoslash_append (h l (by simp))

theorem no_btick_mid {ls : List Str} (h : ∀ l ∈ ls, btick ∉ l) :
    ∀ c ∈ ('\n' :: (joinLines ls ++ ['\n'])), ¬ c = btick := by
  intro c hc hcb
  subst hcb
  rcases List.mem_cons.mp hc with h0 | h1
  · exact absurd h0 (by decide)
  · rcases List.mem_append.mp h1 with h2 | h3
    · rcases mem_joinLines h2 with hnl | ⟨l, hl, hcl⟩
      · exact absurd hnl (by decide)
      · exact h l hl hcl
    · exact absurd (by simpa using h3) (by decide : ¬ (btick = '\n'))

/-- Pattern 2 finds nothing in the Scenario-C reply family: the only
fence-started positions are the four fence sites, and none is followed by a
`//` file comment. -/
theorem scanFrom_simple_none (las lbs : List Str)
    (hlines : ∀ l ∈ las ++ lbs, ('\n' ∉ l) ∧ (btick ∉ l) ∧
      strStarts (String.toList "//") l = false) :
    scanFrom matchMFSimpleAt (twoFileReply (joinLines las) (joinLines lbs)) = none := by
  have hb : ¬ (btick = '\n') := by decide
  have hbtickA : ∀ l ∈ las, btick ∉ l := fun l hl =>
    (hlines l (by simp [hl])).2.1
  have hbtickB : ∀ l ∈ lbs, btick ∉ l := fun l hl =>
    (hlines l (by simp [hl])).2.1
  have hslashA : ∀ l ∈ las, strStarts (String.toList "//") l = false :=
    fun l hl => (hlines l (by simp [hl])).2.2
  have hslashB : ∀ l ∈ lbs, strStarts (String.toList "//") l = false :=
    fun l hl => (hlines l (by simp [hl])).2.2
  apply scanFrom_none
  intro t ht
  by_cases hf : strStarts fence t = true
  · unfold twoFileReply at ht
    -- peel the first header
    have s1 : t <:+ fence ++ (('\n' :: (joinLines las ++ ['\n'])) ++ (fence ++
        (('\n' :: String.toList "File: b.ts\n") ++ (fence ++
          (('\n' :: (joinLines lbs ++ ['\n'])) ++ fence))))) :=
      peel_no_btick (by decide) ht hf
    rcases peel_fence (by simp [strStarts, hb]) s1 hf with hsite | s2
    · subst hsite
      have hshape : ('\n' :: (joinLines las ++ ['\n'])) ++ (fence ++
          (('\n' :: String.toList "File: b.ts\n") ++ (fence ++
            (('\n' :: (joinLines lbs ++ ['\n'])) ++ fence)))) =
          '\n' :: (joinLines las ++ '\n' :: (fence ++
            (('\n' :: String.toList "File: b.ts\n") ++ (fence ++
              (('\n' :: (joinLines lbs ++ ['\n'])) ++ fence))))) := by
        simp
      rw [hshape]
      exact matchMFSimpleAt_site (joinLines_slash_append las _ hslashA)
    · have s3 : t <:+ fence ++ (('\n' :: String.toList "File: b.ts\n") ++
          (fence ++ (('\n' :: (joinLines lbs ++ ['\n'])) ++ fence))) :=
        peel_no_btick (no_btick_mid hbtickA) s2 hf
      rcases peel_fence (by simp [strStarts, hb]) s3 hf with hsite | s4
      · subst hsite
        have hshape : ('\n' :: String.toList "File: b.ts\n") ++
            (fence ++ (('\n' :: (joinLines lbs ++ ['\n'])) ++ fence)) =
            '\n' :: (String.toList "File: b.ts\n" ++
              (fence ++ (('\n' :: (joinLines lbs ++ ['\n'])) ++ fence))) := by
          simp
        rw [hshape]
        exact matchMFSimpleAt_site rfl
      · have s5 : t <:+ fence ++ (('\n' :: (joinLines lbs ++ ['\n'])) ++ fence) :=
          peel_no_btick (by decide) s4 hf
        rcases peel_fence (by simp [strStarts, hb]) s5 hf with hsite | s6
        · subst hsite
          have hshape : ('\n' :: (joinLines lbs ++ ['\n'])) ++ fence =
              '\n' :: (joinLines lbs ++ '\n' :: fence) := by simp
          rw [hshape]
          exact matchMFSimpleAt_site (joinLines_slash_append lbs _ hslashB)
        · have s7 : t <:+ fence := peel_no_btick (no_btick_mid hbtickB) s6 hf
          rw [peel_fence_end s7 hf]
          rfl
  · have hf' : strStarts fence t = false := by simpa using hf
    unfold matchMFSimpleAt
    rw [hf']
    simp

theorem matchMFHeaderAt_keyA (tail0 : Str) :
    matchMFHeaderAt (String.toList "File: a.ts\n" ++ (fence ++ '\n' :: tail0)) =
      (takeUntilSeq fence tail0).map (fun p =>
        (⟨String.toList "a.ts", MFChangeType.modify, trimStr p.1,
          String.toList "typescript", none, none, none⟩, p.2)) := rfl

theorem matchMFHeaderAt_keyB (tail0 : Str) :
    matchMFHeaderAt (String.toList "File: b.ts\n" ++ (fence ++ '\n' :: tail0)) =
      (takeUntilSeq fence tail0).map (fun p =>
        (⟨String.toList "b.ts", MFChangeType.modify, trimStr p.1,
          String.toList "typescript", none, none, none⟩, p.2)) := rfl

theorem takeUntilSeq_fence_eval (ls : List Str) (X : Str)
    (hbt : ∀ l ∈ ls, btick ∉ l) :
    takeUntilSeq fence ((joinLines ls ++ ['\n']) ++ (fence ++ X)) =
      some (joinLines ls ++ ['\n'], X) := by
  have happ : (joinLines ls ++ ['\n']) ++ (fence ++ X) =
      (joinLines ls ++ ['\n']) ++ fence ++ X := by simp
  rw [happ]
  apply takeUntilSeq_append
  · simp [fence]
  · intro u v huv hv
    cases v with
    | nil => exact absurd rfl hv
    | cons c cs =>
      have hcmem : c ∈ joinLines ls ++ ['\n'] := by
        rw [huv]; simp
      have hcb : ¬ (btick = c) := by
        intro hh
        rcases List.mem_append.mp hcmem with h2 | h3
        · rcases mem_joinLines h2 with hnl | ⟨l, hl, hcl⟩
          · exact absurd (hh.trans hnl) (by decide)
          · exact hbt l hl (by rwa [← hh] at hcl)
        · exact absurd (hh.trans (by simpa using h3)) (by decide)
      simp [fence, strStarts, hcb]

theorem parseMultiFileP1_eval (las lbs : List Str)
    (hbtA : ∀ l ∈ las, btick ∉ l) (hbtB : ∀ l ∈ lbs, btick ∉ l) :
    parseMultiFileP1 (twoFileReply (joinLines las) (joinLines lbs)) =
      [⟨String.toList "a.ts", MFChangeType.modify, trimStr (joinLines las),
        String.toList "typescript", none, none, none⟩,
        ⟨String.toList "b.ts", MFChangeType.modify, trimStr (joinLines lbs),
          String.toList "typescript", none, none, none⟩] := by
  have hshape1 : twoFileReply (joinLines las) (joinLines lbs) =
      String.toList "File: a.ts\n" ++ (fence ++ '\n' ::
        ((joinLines las ++ ['\n']) ++ (fence ++
          (('\n' :: String.toList "File: b.ts\n") ++ (fence ++
            (('\n' :: (joinLines lbs ++ ['\n'])) ++ fence)))))) := by
    unfold twoFileReply
    simp
  have h1 : matchMFHeaderAt (twoFileReply (joinLines las) (joinLines lbs)) =
      some (⟨String.toList "a.ts", MFChangeType.modify,
          trimStr (joinLines las ++ ['\n']), String.toList "typescript",
          none, none, none⟩,
        ('\n' :: String.toList "File: b.ts\n") ++ (fence ++
          (('\n' :: (joinLines lbs ++ ['\n'])) ++ fence))) := by
    rw [hshape1, matchMFHeaderAt_keyA, takeUntilSeq_fence_eval las _ hbtA]
    rfl
  have hrest1 : ('\n' :: String.toList "File: b.ts\n") ++ (fence ++
      (('\n' :: (joinLines lbs ++ ['\n'])) ++ fence)) =
      '\n' :: (String.toList "File: b.ts\n" ++ (fence ++ '\n' ::
        ((joinLines lbs ++ ['\n']) ++ (fence ++ [])))) := by
    simp
  have h2 : matchMFHeaderAtNL (('\n' :: String.toList "File: b.ts\n") ++ (fence ++
      (('\n' :: (joinLines lbs ++ ['\n'])) ++ fence))) =
      some (⟨String.toList "b.ts", MFChangeType.modify,
          trimStr (joinLines lbs ++ ['\n']), String.toList "typescript",
          none, none, none⟩, []) := by
    rw [hrest1]
    show matchMFHeaderAt (String.toList "File: b.ts\n" ++ (fence ++ '\n' ::
      ((joinLines lbs ++ ['\n']) ++ (fence ++ [])))) = _
    rw [matchMFHeaderAt_keyB, takeUntilSeq_fence_eval lbs [] hbtB]
    rfl
  have hscan : scanAll matchMFHeaderAtNL
      (('\n' :: String.toList "File: b.ts\n") ++ (fence ++
        (('\n' :: (joinLines lbs ++ ['\n'])) ++ fence))) =
      [⟨String.toList "b.ts", MFChangeType.modify,
        trimStr (joinLines lbs ++ ['\n']), String.toList "typescript",
        none, none, none⟩] :=
    scanAll_single (scanFrom_of_matchAt h2) rfl
  unfold parseMultiFileP1
  rw [h1]
  simp only [hscan, trimStr_append_nl]

/-- C3 counterexample.  A reply with the two `File: a.ts` / `File: b.ts`
headers, each followed by a five-line fenced block, on which
`parseMultiFileResponse` returns three changes, not two: the three pattern
loops are not in fall-through priority (none is guarded by the previous
loop finding matches), so the `DELETE old.ts` line ending the first block
also matches Pattern 3. -/
theorem parseMultiFileResponse_two_files_counterexample :
    (parseMultiFileResponse (twoFileReply
      (joinLines (List.map String.toList
        ["const a = 1;", "const b = 2;", "const c = 3;", "const d = 4;",
          "DELETE old.ts"]))
      (joinLines (List.map String.toList
        ["let x = 0;", "let y = 1;", "let z = 2;", "x = y + z;",
          "z = x;"])))).length = 3 := by
  decide

/-- C3 (amended).  For every reply carrying the two headers `File: a.ts`
and `File: b.ts`, each followed by a five-line fenced block whose lines are
single lines free of backticks and not starting with a `//` file comment,
and whose lowercase text holds none of the action keywords create, modify,
delete, `parseMultiFileResponse` returns exactly two MultiFileChange
entries: type `modify`, the stated paths, the trimmed block bodies, and
the language derived from the `.ts` extension.  Pattern 1 produces the two
entries; Patterns 2 and 3 — which always run, the loops not being in
fall-through priority — find nothing under these provisos. -/
theorem parseMultiFileResponse_two_files (las lbs : List Str)
    (_h5a : las.length = 5) (_h5b : lbs.length = 5)
    (hlines : ∀ l ∈ las ++ lbs, ('\n' ∉ l) ∧ (btick ∉ l) ∧
      strStarts (String.toList "//") l = false)
    (hkw : ∀ kw ∈ [String.toList "create", String.toList "modify",
      String.toList "delete"],
      containsStr kw (lowerStr (twoFileReply (joinLines las) (joinLines lbs))) =
        false) :
    parseMultiFileResponse (twoFileReply (joinLines las) (joinLines lbs)) =
      [⟨String.toList "a.ts", MFChangeType.modify, trimStr (joinLines las),
        String.toList "typescript", none, none, none⟩,
        ⟨String.toList "b.ts", MFChangeType.modify, trimStr (joinLines lbs),
          String.toList "typescript", none, none, none⟩] := by
  have hbtA : ∀ l ∈ las, btick ∉ l := fun l hl =>
    (hlines l (by simp [hl])).2.1
  have hbtB : ∀ l ∈ lbs, btick ∉ l := fun l hl =>
    (hlines l (by simp [hl])).2.1
  have hp2 : scanAll matchMFSimpleAt
      (twoFileReply (joinLines las) (joinLines lbs)) = [] :=
    scanAll_of_none (scanFrom_simple_none las lbs hlines)
  have hp3 : scanAll matchMFActionAt
      (twoFileReply (joinLines las) (joinLines lbs)) = [] :=
    scanAll_of_none (scanFrom_none (fun t ht => matchMFActionAt_none hkw ht))
  unfold parseMultiFileResponse
  rw [parseMultiFileP1_eval las lbs hbtA hbtB, hp2, hp3]
  simp

/-- C3 witness: a concrete keyword-free pair of five-line bodies. -/
theorem parseMultiFileResponse_two_files_witness :
    parseMultiFileResponse (twoFileReply
      (joinLines (List.map String.toList
        ["const a = 1;", "const b = 2;", "const c = 3;", "const d = 4;",
          "const e = 5;"]))
      (joinLines (List.map String.toList
        ["let x = 0;", "let y = 1;", "let z = 2;", "x = y + z;",
          "z = x;"]))) =
      [⟨String.toList "a.ts", MFChangeType.modify,
        trimStr (joinLines (List.map String.toList
          ["const a = 1;", "const b = 2;", "const c = 3;", "const d = 4;",
            "const e = 5;"])),
        String.toList "typescript", none, none, none⟩,
        ⟨String.toList "b.ts", MFChangeType.modify,
          trimStr (joinLines (List.map String.toList
            ["let x = 0;", "let y = 1;", "let z = 2;", "x = y + z;",
              "z = x;"])),
          String.toList "typescript", none, none, none⟩] :=
  parseMultiFileResponse_two_files
    (List.map String.toList
      ["const a = 1;", "const b = 2;", "const c = 3;", "const d = 4;",
        "const e = 5;"])
    (List.map String.toList
      ["let x = 0;", "let y = 1;", "let z = 2;", "x = y + z;", "z = x;"])
    (by decide) (by decide) (by decide) (by decide)

end OutputParser

/-! ## C5: `OutputParser.parseAIResponse` on prose replies -/

namespace OutputParser

/-- The optional `context` argument of `parseAIResponse`
(`originalLanguage?`, `expectMultiFile?`, `instruction?`). -/
structure Ctx where
  originalLanguage : Option Str
  expectMultiFile : Bool
  instruction : Option Str
  deriving DecidableEq

/-- The `patchType` values of `ParsedOutput`. -/
inductive PatchKind where
  | inline | generation | refactor | multifile
  deriving DecidableEq

/-- The `metadata.responseType` values of `ParsedOutput`. -/
inductive RespType where
  | code_only | code_with_explanation | explanation_only | multifile
  deriving DecidableEq

/-- One entry of the `alternatives` array of `ParsedOutput`. -/
structure AltBlock where
  code : Str
  language : Str
  label : Option Str
  confidence : ℚ
  deriving DecidableEq

/-- The `CodeBlock` interface. -/
structure CodeBlock where
  code : Str
  language : Str
  label : Option Str
  confidence : ℚ
  lineCount : ℕ
  hasComments : Bool
  imports : List Str
  deriving DecidableEq

/-- The `metadata` record of `ParsedOutput`. -/
structure RespMetadata where
  responseType : RespType
  codeBlockCount : ℕ
  hasInlineComments : Bool
  preservesFormatting : Bool
  containsImports : Bool
  deriving DecidableEq

/-- The `ParsedOutput` interface (optional fields as `Option`). -/
structure ParsedOutput where
  code : Str
  explanation : Option Str
  hasCodeBlocks : Bool
  language : Option Str
  confidence : ℚ
  patchType : PatchKind
  metadata : RespMetadata
  alternatives : Option (List AltBlock)
  deriving DecidableEq

/-- The positions where a multiline `^` anchor (or a `(?:^|\n)` group)
matches, as the suffixes they start: the whole string is listed separately
by the callers; this function lists the suffix after each newline. -/
def lineStartSuffixes : Str → List Str
  | [] => []
  | c :: cs => if c = '\n' then cs :: lineStartSuffixes cs else lineStartSuffixes cs

/-- A sequence of keywords each followed by mandatory whitespace
(`kw1\s+kw2\s+…`), as used by the `/^\s*kw\s+/m` style tests. -/
def kwSeqWS : List Str → Str → Bool
  | [], _ => true
  | kw :: rest, t =>
    strStarts kw t &&
      (match t.drop kw.length with
        | c :: cs => isWS c && kwSeqWS rest (cs.dropWhile isWS)
        | [] => false)

/-- `OutputParser.isCodeLike`: the four code indicators.  The third
indicator's regex tail is corrupted in the scraped source (the `\(` became
a doubled dollar); it is restored from the spec's reading (a control
keyword followed by an opening parenthesis). -/
def isCodeLike (text : Str) : Bool :=
  (text.any (fun c =>
    c = Char.ofNat 123 || c = Char.ofNat 125 || c = '(' || c = ')' || c = ';')) ||
  ((text :: lineStartSuffixes text).any (fun t =>
    [String.toList "function", String.toList "class", String.toList "const",
      String.toList "let", String.toList "var", String.toList "def",
      String.toList "import", String.toList "from"].any
      (fun kw => kwSeqWS [kw] (t.dropWhile isWS)))) ||
  ((text :: lineStartSuffixes text).any (fun t =>
    [String.toList "if", String.toList "for", String.toList "while",
      String.toList "switch", String.toList "try", String.toList "catch"].any
      (fun kw =>
        let t1 := t.dropWhile isWS
        strStarts kw t1 &&
          strStarts ['('] ((t1.drop kw.length).dropWhile isWS)))) ||
  ((text :: lineStartSuffixes text).any (fun t =>
    let t1 := t.dropWhile isWS
    strStarts (String.toList "//") t1 || strStarts (String.toList "/*") t1 ||
      strStarts (String.toList "#") t1))

/-- Does the line hold a single or double quote? -/
def hasQuote (l : Str) : Bool := l.any (fun c => c = '"' || c = Char.ofNat 39)

/-- `OutputParser.detectLanguageFromCode`.  The `require` alternative's
parenthesis is corrupted in the scraped source (doubled dollars) and is
restored from the spec; the in-line `.*` wildcards are modelled as
containment within the rest of the line. -/
def detectLanguageFromCode (code : Str) : Str :=
  let starts := code :: lineStartSuffixes code
  let rol := fun (t : Str) => t.takeWhile (fun c => c ≠ '\n')
  if starts.any (fun t =>
      let t1 := t.dropWhile isWS
      (kwSeqWS [String.toList "import"] t1 &&
        containsStr (String.toList "from") (rol t1) && hasQuote (rol t1)) ||
      (kwSeqWS [String.toList "const"] t1 &&
        containsStr (String.toList "=") (rol t1) &&
        containsStr (String.toList "require(") (rol t1)))
  then String.toList "javascript"
  else if starts.any (fun t =>
      let t1 := t.dropWhile isWS
      (kwSeqWS [String.toList "import"] t1 &&
        containsStr (String.toList "from") (rol t1) && hasQuote (rol t1)) ||
      kwSeqWS [String.toList "interface"] t1 ||
      kwSeqWS [String.toList "type"] t1)
  then String.toList "typescript"
  else if starts.any (fun t =>
      let t1 := t.dropWhile isWS
      kwSeqWS [String.toList "def"] t1 || kwSeqWS [String.toList "import"] t1 ||
      (kwSeqWS [String.toList "from"] t1 &&
        containsStr (String.toList "import") (rol t1)))
  then String.toList "python"
  else if starts.any (fun t =>
      let t1 := t.dropWhile isWS
      kwSeqWS [String.toList "public", String.toList "class"] t1 ||
      (strStarts (String.toList "import") t1 &&
        (match t1.drop 6 with
          | c :: cs => isWS c && strStarts (String.toList "java.") (cs.dropWhile isWS)
          | [] => false)))
  then String.toList "java"
  else String.toList "text"

end OutputParser

namespace OutputParser

/-- `OutputParser.containsImports`:
`/^\s*(?:import|from|using|include|require)\s+/m`. -/
def containsImports (code : Str) : Bool :=
  (code :: lineStartSuffixes code).any (fun t =>
    [String.toList "import", String.toList "from", String.toList "using",
      String.toList "include", String.toList "require"].any
      (fun kw => kwSeqWS [kw] (t.dropWhile isWS)))

/-- The inline-comment test of `parseCodeOnlyResponse`
(`/\/\/|\/\*|\*\/|#/`). -/
def hasInlineCommentsTest (r : Str) : Bool :=
  containsStr (String.toList "//") r || containsStr (String.toList "/*") r ||
    containsStr (String.toList "*/") r || containsStr (String.toList "#") r

/-- The `hasComments` test of `extractEnhancedCodeBlocks`: the inline
comment markers plus the HTML comment opener. -/
def blockHasComments (r : Str) : Bool :=
  hasInlineCommentsTest r || containsStr (String.toList "<!--") r

/-- A `String.prototype.replace(pattern, rep)` loop with a global flag:
`m t` returns the length of the (nonempty) match starting at `t`, the
match is replaced by `rep` and scanning resumes after it; fuel bounds the
recursion. -/
def replaceMatches (m : Str → Option ℕ) (rep : Str) : ℕ → Str → Str
  | 0, r => r
  | Nat.succ n, r =>
    match r with
    | [] => []
    | c :: cs =>
      match m r with
      | some (Nat.succ k) => rep ++ replaceMatches m rep n (r.drop (Nat.succ k))
      | _ => c :: replaceMatches m rep n cs

/-- The length of a whole fenced block at `t` (the corrupted
fenced-block-removal regexes, reconstructed from the spec as a lazy
fence-to-fence span). -/
def fenceBlockLen (t : Str) : Option ℕ :=
  if strStarts fence t then
    (takeUntilSeq fence (t.drop 3)).map (fun p => 3 + p.1.length + 3)
  else none

/-- The fenced-code removal used by `detectResponseType` and
`analyzeResponseMetadata` (`response.replace(corrupted-regex, '')`,
modelled from the spec as deleting every fenced block). -/
def stripFencedBlocks (r : Str) : Str :=
  replaceMatches fenceBlockLen [] (r.length + 1) r

/-- `response.split('\x60\x60\x60').length`: one more than the number of
leftmost non-overlapping fence occurrences. -/
def fenceSplitCount (r : Str) : ℕ :=
  (scanAll (fun t => if strStarts fence t then some ((), t.drop 3) else none) r).length
    + 1

/-- The fenced-block presence test of `detectResponseType` (its regex is
corrupted to six backticks in the scraped source; modelled from the spec
as the presence of a fence). -/
def hasFencedBlockTest (r : Str) : Bool := containsStr fence r

/-- One position of the (intact) file-header regex of `detectResponseType`:
`(?:##?\s*)?(?:File:|Path:)\s*[^\n]+` with the `i` flag, the `(?:^|\n)`
anchor being handled by the caller.  The trailing `\s*[^\n]+` holds when
some whitespace prefix is followed by a character other than a newline. -/
def fileHeaderHereTest (t : Str) : Bool :=
  let r1 := if strStarts (String.toList "##") t then (t.drop 2).dropWhile isWS
    else if strStarts (String.toList "#") t then (t.drop 1).dropWhile isWS
    else t
  if strStartsCI (String.toList "File:") r1 || strStartsCI (String.toList "Path:") r1
  then
    let r2 := r1.drop 5
    (List.range (r2.length + 1)).any (fun k =>
      ((r2.take k).all isWS) &&
        (match r2.drop k with
          | c :: _ => decide (c ≠ '\n')
          | [] => false))
  else false

/-- The `hasFileHeaders` test of `detectResponseType`. -/
def hasFileHeaders (r : Str) : Bool :=
  (r :: lineStartSuffixes r).any fileHeaderHereTest

/-- `OutputParser.detectResponseType` (lines 2186–2204). -/
def detectResponseType (response : Str) : RespType :=
  let hasCodeBlocksB := hasFencedBlockTest response
  let hasFileHeadersB := hasFileHeaders response
  let hasMultipleCodeBlocks := decide (4 < fenceSplitCount response)
  if hasFileHeadersB || hasMultipleCodeBlocks then RespType.multifile
  else if !hasCodeBlocksB then
    if isCodeLike response then RespType.code_only else RespType.explanation_only
  else if 50 < (trimStr (stripFencedBlocks response)).length then
    RespType.code_with_explanation
  else RespType.code_only

end OutputParser

namespace OutputParser

/-- `OutputParser.normalizeLanguage`: the `LANGUAGE_ALIASES` table applied
to the lowercased tag, defaulting to the lowercased tag. -/
def normalizeLanguage (language : Str) : Str :=
  let l := lowerStr language
  if l = String.toList "js" then String.toList "javascript"
  else if l = String.toList "ts" then String.toList "typescript"
  else if l = String.toList "jsx" then String.toList "javascript"
  else if l = String.toList "tsx" then String.toList "typescript"
  else if l = String.toList "py" then String.toList "python"
  else if l = String.toList "rb" then String.toList "ruby"
  else if l = String.toList "sh" then String.toList "bash"
  else if l = String.toList "yml" then String.toList "yaml"
  else if l = String.toList "md" then String.toList "markdown"
  else l

/-- Does the string end with the character `c`? -/
def endsWithCh (c : Char) (s : Str) : Bool :=
  match s.getLast? with
  | some d => d = c
  | none => false

/-- `OutputParser.isCompleteCode`: language-specific trailing-character
checks over the trimmed code (on a trimmed string the python `/:\s*$/`
test is a last-character test). -/
def isCompleteCode (code language : Str) : Bool :=
  let trimmed := trimStr code
  if trimmed.isEmpty then false
  else if language = String.toList "javascript" ||
      language = String.toList "typescript" then
    !endsWithCh ',' trimmed && !endsWithCh '.' trimmed
  else if language = String.toList "python" then !endsWithCh ':' trimmed
  else !endsWithCh ',' trimmed && !endsWithCh ';' trimmed

/-- `OutputParser.calculateBlockConfidence`: 0.7, plus 0.2 for valid
bracket syntax, plus 0.1 for completeness, capped at 1. -/
def calculateBlockConfidence (code language : Str) : ℚ :=
  min ((7/10 : ℚ) +
    (if PatchEngine.hasValidSyntax code language then 2/10 else 0) +
    (if isCompleteCode code language then 1/10 else 0)) 1

/-- `OutputParser.extractImportsFromCode`: per-language line patterns (the
`/m` regexes are anchored `^…$`, so they match whole lines); the dotted
wildcards are modelled as in-line containment, and the corrupted
`require` parenthesis group of the javascript entry is restored from the
spec. -/
def importPatternsFor (language : Str) : List (Str → Bool) :=
  if language = String.toList "javascript" then
    [fun l => kwSeqWS [String.toList "import"] l &&
        containsStr (String.toList "from") l && hasQuote l &&
        (endsWithCh '"' l || endsWithCh (Char.ofNat 39) l),
      fun l => kwSeqWS [String.toList "const"] l &&
        containsStr (String.toList "=") l &&
        containsStr (String.toList "require(") l && endsWithCh ')' l]
  else if language = String.toList "typescript" then
    [fun l => kwSeqWS [String.toList "import"] l &&
        containsStr (String.toList "from") l && hasQuote l &&
        (endsWithCh '"' l || endsWithCh (Char.ofNat 39) l),
      fun l => kwSeqWS [String.toList "import", String.toList "type"] l &&
        containsStr (String.toList "from") l && hasQuote l &&
        (endsWithCh '"' l || endsWithCh (Char.ofNat 39) l)]
  else if language = String.toList "python" then
    [fun l => kwSeqWS [String.toList "import"] l,
      fun l => kwSeqWS [String.toList "from"] l &&
        containsStr (String.toList "import") l]
  else if language = String.toList "java" then
    [fun l => kwSeqWS [String.toList "import"] l]
  else if language = String.toList "csharp" then
    [fun l => kwSeqWS [String.toList "using"] l]
  else []

/-- `extractImportsFromCode` proper: each pattern contributes its matching
lines, in pattern order. -/
def extractImportsFromCode (code language : Str) : List Str :=
  (importPatternsFor language).foldr
    (fun p acc => (splitLines code).filter p ++ acc) []

end OutputParser

namespace OutputParser

/-- A label pattern `(?:kw1|kw2|…)\s+(\d+):?\s*([^\n]*)` with the `i`
flag, returning the matched text (`match[0]`). -/
def labelNumMatchAt (kws : List Str) (t : Str) : Option Str :=
  (firstSome (fun kw => if strStartsCI kw t then some kw.length else none) kws).bind
    (fun n =>
      let kwTxt := t.take n
      let r1 := t.drop n
      let ws1 := r1.takeWhile isWS
      if ws1.isEmpty then none
      else
        let r2 := r1.drop ws1.length
        let ds := r2.takeWhile isDigitCh
        if ds.isEmpty then none
        else
          let r3 := r2.drop ds.length
          let col := if strStarts [':'] r3 then [':'] else ([] : Str)
          let r4 := r3.drop col.length
          let ws2 := r4.takeWhile isWS
          let rest := (r4.drop ws2.length).takeWhile (fun c => c ≠ '\n')
          some (kwTxt ++ ws1 ++ ds ++ col ++ ws2 ++ rest))

/-- The label pattern `(\d+)\.\s*([^\n]*)`, returning the matched text. -/
def labelNumDotAt (t : Str) : Option Str :=
  let ds := t.takeWhile isDigitCh
  if ds.isEmpty then none
  else
    let r1 := t.drop ds.length
    if strStarts ['.'] r1 then
      let r2 := r1.drop 1
      let ws := r2.takeWhile isWS
      let rest := (r2.drop ws.length).takeWhile (fun c => c ≠ '\n')
      some (ds ++ '.' :: ws ++ rest)
    else none

/-- The label pattern `##\s*([^\n]+)`, returning the matched text. -/
def labelHashAt (t : Str) : Option Str :=
  if strStarts (String.toList "##") t then
    let r1 := t.drop 2
    let ws := r1.takeWhile isWS
    let rest := (r1.drop ws.length).takeWhile (fun c => c ≠ '\n')
    if rest.isEmpty then none else some (String.toList "##" ++ ws ++ rest)
  else none

/-- `OutputParser.extractBlockLabel`: the four label patterns tried in
order over the (at most) 200 characters before the block; the first
pattern that matches anywhere yields its leftmost match, trimmed. -/
def extractBlockLabel (response : Str) (blockIndex : ℕ) : Option Str :=
  let pre := response.take blockIndex
  let beforeBlock := pre.drop (pre.length - 200)
  firstSome (fun m => (scanFrom m beforeBlock).map trimStr)
    [labelNumMatchAt [String.toList "Option", String.toList "Alternative",
        String.toList "Solution"],
      labelNumMatchAt [String.toList "Version", String.toList "Approach"],
      labelNumDotAt, labelHashAt]

/-- JavaScript's `ToInt32` conversion. -/
def toInt32 (n : ℤ) : ℤ := ((n + 2 ^ 31) % 2 ^ 32) - 2 ^ 31

/-- `OutputParser.hashCode`: the 32-bit rolling hash
`hash = (hash << 5) - hash + charCode` with int32 wrap-around at every
step (the serialization to a decimal string is dropped: only equality of
hashes is ever consulted). -/
def jsHashCode (s : Str) : ℤ :=
  s.foldl (fun h c => toInt32 (31 * h + c.toNat)) 0

/-- `OutputParser.deduplicateCodeBlocks`: keep the first block for every
distinct code hash. -/
def deduplicateCodeBlocks (blocks : List CodeBlock) : List CodeBlock :=
  (blocks.foldl (fun (acc : List CodeBlock × List ℤ) b =>
    let h := jsHashCode b.code
    if h ∈ acc.2 then acc else (acc.1 ++ [b], acc.2 ++ [h])) ([], [])).1

/-- Modelled from the spec (corrupted regex): the code-block pattern of
`extractEnhancedCodeBlocks`, a fence, a word-character language tag, a
newline and a lazy body up to the next fence; yields the tag, the raw
body, the matched length and the rest. -/
def matchCodeBlockAt (t : Str) : Option (Str × Str × ℕ × Str) :=
  if strStarts fence t then
    let lang := (t.drop 3).takeWhile isWordChar
    match (t.drop 3).drop lang.length with
    | '\n' :: r =>
      (takeUntilSeq fence r).map (fun p =>
        (lang, p.1, 3 + lang.length + 1 + p.1.length + 3, p.2))
    | _ => none
  else none

/-- One parsed block of `extractEnhancedCodeBlocks` (the `blocks.push`
body): the code is trimmed, the language defaulted to `text` and
normalized, the confidence and imports computed on the raw tag as in the
source. -/
def mkCodeBlock (full : Str) (pos : ℕ) (lang body : Str) : CodeBlock :=
  let language := if lang.isEmpty then String.toList "text" else lang
  let code := trimStr body
  ⟨code, normalizeLanguage language, extractBlockLabel full pos,
    calculateBlockConfidence code language, (splitLines code).length,
    blockHasComments code, extractImportsFromCode code language⟩

/-- The scanning loop of `extractEnhancedCodeBlocks`: leftmost
non-overlapping matches, skipping blocks whose trimmed code is empty;
`pos` tracks `match.index` for the label window. -/
def extractBlocksAux (full : Str) : ℕ → ℕ → Str → List CodeBlock
  | 0, _, _ => []
  | Nat.succ n, pos, rem =>
    match matchCodeBlockAt rem with
    | some (lang, body, used, rest) =>
      if (trimStr body).isEmpty then extractBlocksAux full n (pos + used) rest
      else mkCodeBlock full pos lang body :: extractBlocksAux full n (pos + used) rest
    | none =>
      match rem with
      | [] => []
      | _ :: rs => extractBlocksAux full n (pos + 1) rs

/-- `OutputParser.extractEnhancedCodeBlocks` (line 1991). -/
def extractEnhancedCodeBlocks (response : Str) : List CodeBlock :=
  deduplicateCodeBlocks (extractBlocksAux response (response.length + 1) 0 response)

end OutputParser

namespace OutputParser

/-- The per-block score of `selectPrimaryCodeBlock`. -/
def blockScore (context : Option Ctx) (b : CodeBlock) : ℚ :=
  b.confidence +
    (if (match context with
        | some c => match c.originalLanguage with
          | some ol => decide (b.language = ol)
          | none => false
        | none => false) then 2/10 else 0) +
    (if 5 < b.lineCount then 1/10 else 0) +
    (if 20 < b.lineCount then 1/10 else 0) +
    (if b.imports.isEmpty then 0 else 1/10) +
    (if b.label.isSome then 1/20 else 0)

/-- Stable descending insertion for scored blocks (the JS sort with
comparator `b.score - a.score` is stable). -/
def insertDescBlk (acc : List (CodeBlock × ℚ)) (m : CodeBlock × ℚ) :
    List (CodeBlock × ℚ) :=
  match acc with
  | [] => [m]
  | x :: xs => if x.2 < m.2 then m :: x :: xs else x :: insertDescBlk xs m

/-- `OutputParser.selectPrimaryCodeBlock`: a single block is returned
directly; otherwise the highest-scoring block wins (`none` models the
undefined `scoredBlocks[0]` on an empty list, caught by the caller's
safety check). -/
def selectPrimaryCodeBlock (blocks : List CodeBlock) (context : Option Ctx) :
    Option CodeBlock :=
  match blocks with
  | [b] => some b
  | _ =>
    (((blocks.map (fun b => (b, blockScore context b))).foldl insertDescBlk
      []).head?).map (fun p => p.1)

/-- The matched length at `t` of the block-removal pattern of
`extractSmartExplanation` (a fence, a word tag of any length up to the
greedy run, an optional newline, the block's code verbatim — the source
escapes it —, an optional newline and a fence). -/
def blockOccurLen (code : Str) (t : Str) : Option ℕ :=
  if strStarts fence t then
    let w := (t.drop 3).takeWhile isWordChar
    let tryAt := fun (k : ℕ) =>
      let t1 := (t.drop 3).drop k
      let tryNL := fun (pre : ℕ) (t2 : Str) =>
        if strStarts code t2 then
          let t3 := t2.drop code.length
          if strStarts ('\n' :: fence) t3 then some (3 + k + pre + code.length + 4)
          else if strStarts fence t3 then some (3 + k + pre + code.length + 3)
          else none
        else none
      match t1 with
      | '\n' :: t2 => (tryNL 1 t2).orElse (fun _ => tryNL 0 t1)
      | _ => tryNL 0 t1
    firstSome tryAt ((List.range (w.length + 1)).reverse)
  else none

/-- Join paragraphs with a blank line (`join('\n\n')`). -/
def joinParas : List Str → Str
  | [] => []
  | [p] => p
  | p :: ps => p ++ '\n' :: '\n' :: joinParas ps

/-- `OutputParser.extractSmartExplanation`.  Each block's fenced
occurrences are removed, then stray fences (that replacement's regex is
corrupted in the scraped source); lines are trimmed and blank lines
dropped.  The six boilerplate-cleanup replacements only rewrite prose that
no property here observes and are the identity in this model.  Because
blank lines were just removed, the source's paragraph split on blank lines
is the identity partition, so the remaining text forms one candidate
paragraph, kept when it is over ten characters and not code-like. -/
def extractSmartExplanation (response : Str) (codeBlocks : List CodeBlock) :
    Option Str :=
  let afterBlocks := codeBlocks.foldl (fun e b =>
    let e1 := replaceMatches (blockOccurLen b.code) [] (e.length + 1) e
    replaceMatches (fun t => if strStarts fence t then some 3 else none) []
      (e1.length + 1) e1) response
  let e2 := trimStr afterBlocks
  let lines := (splitLines e2).map trimStr
  let e3 := joinLines (lines.filter (fun l => !l.isEmpty))
  let meaningful := (if 10 < (trimStr e3).length && !isCodeLike e3 then [e3]
    else ([] : List Str))
  if meaningful.isEmpty then none
  else some (trimStr (joinParas meaningful))

/-- `String.prototype.split(/\s+/)`: maximal whitespace runs separate the
pieces, with boundary empties as in JavaScript; fuel bounds the
recursion. -/
def splitWSAux : ℕ → Str → Str → List Str
  | 0, cur, _ => [cur.reverse]
  | _, cur, [] => [cur.reverse]
  | Nat.succ n, cur, c :: cs =>
    if isWS c then cur.reverse :: splitWSAux n [] (cs.dropWhile isWS)
    else splitWSAux n (c :: cur) cs

/-- `split(/\s+/)` on a string. -/
def splitWS (s : Str) : List Str := splitWSAux (s.length + 1) [] s

/-- `OutputParser.assessContextRelevance`: the share of instruction words
longer than three characters that reappear in the code, capped at 1. -/
def assessContextRelevance (code instruction : Str) : ℚ :=
  let instructionWords := splitWS (lowerStr instruction)
  let codeWords := splitWS (lowerStr code)
  let common := instructionWords.filter (fun w => 3 < w.length && w ∈ codeWords)
  min ((common.length : ℚ) / (instructionWords.length : ℚ)) 1

/-- `OutputParser.calculateResponseConfidence`. -/
def calculateResponseConfidence (block : CodeBlock) (explanation : Option Str)
    (context : Option Ctx) : ℚ :=
  let c1 := block.confidence +
    (match explanation with
      | some e => if e.isEmpty then 0 else min ((e.length : ℚ) / 100) 1 * (1/10)
      | none => 0)
  let c2 := c1 +
    (match context with
      | some ctx => match ctx.instruction with
        | some instr =>
          if instr.isEmpty then 0
          else assessContextRelevance block.code instr * (2/10)
        | none => 0
      | none => 0)
  min c2 1

/-- `OutputParser.determinePatchType` (the block argument is unused in the
source too). -/
def determinePatchType (_block : CodeBlock) (explanation : Option Str)
    (context : Option Ctx) : PatchKind :=
  if (match explanation with
    | some e => !e.isEmpty &&
      [String.toList "refactor", String.toList "restructure",
        String.toList "reorganize", String.toList "extract",
        String.toList "rename"].any (fun kw => containsStr kw (lowerStr e))
    | none => false) then PatchKind.refactor
  else if (match context with
    | some ctx => match ctx.instruction with
      | some i => !i.isEmpty &&
        [String.toList "create", String.toList "generate", String.toList "add",
          String.toList "implement", String.toList "write"].any
          (fun kw => containsStr kw (lowerStr i))
      | none => false
    | none => false) then PatchKind.generation
  else PatchKind.inline

/-- `OutputParser.checkFormattingPreservation`: every block has some
indented line. -/
def checkFormattingPreservation (blocks : List CodeBlock) : Bool :=
  blocks.all (fun b => (splitLines b.code).any (fun l =>
    match l with
    | c :: _ => isWS c
    | [] => false))

/-- `OutputParser.analyzeResponseMetadata` (line 2148). -/
def analyzeResponseMetadata (response : Str) (codeBlocks : List CodeBlock) :
    RespMetadata :=
  let rt := if codeBlocks.isEmpty then RespType.explanation_only
    else if 50 < (trimStr (stripFencedBlocks response)).length then
      RespType.code_with_explanation
    else RespType.code_only
  ⟨rt, codeBlocks.length, codeBlocks.any (fun b => b.hasComments),
    checkFormattingPreservation codeBlocks,
    codeBlocks.any (fun b => !b.imports.isEmpty)⟩

/-- `OutputParser.calculateCodeOnlyConfidence`: 0.6, plus 0.2 when the
text is code-like, plus 0.2 when the detected language matches the
context's, capped at 1. -/
def calculateCodeOnlyConfidence (code : Str) (context : Option Ctx) : ℚ :=
  min ((6/10 : ℚ) + (if isCodeLike code then 2/10 else 0) +
    (match context with
      | some ctx => match ctx.originalLanguage with
        | some ol =>
          if !ol.isEmpty && detectLanguageFromCode code = ol then 2/10 else 0
        | none => 0
      | none => 0)) 1

/-- `OutputParser.parseCodeOnlyResponse` (lines 2165–2184): the returned
metadata hardcodes `responseType: 'code_only'`. -/
def parseCodeOnlyResponse (response : Str) (context : Option Ctx) : ParsedOutput :=
  let language := match context with
    | some c => match c.originalLanguage with
      | some ol => if ol.isEmpty then detectLanguageFromCode response else ol
      | none => detectLanguageFromCode response
    | none => detectLanguageFromCode response
  ⟨response, none, false, some language,
    calculateCodeOnlyConfidence response context, PatchKind.inline,
    ⟨RespType.code_only, 0, hasInlineCommentsTest response, true,
      containsImports response⟩, none⟩

end OutputParser

namespace OutputParser

/-- JSON string escaping (the characters the serialized changes can
contain). -/
def jsonEscape (s : Str) : Str :=
  s.foldr (fun c acc =>
    if c = '"' then '\\' :: '"' :: acc
    else if c = '\\' then '\\' :: '\\' :: acc
    else if c = '\n' then '\\' :: 'n' :: acc
    else if c = '\t' then '\\' :: 't' :: acc
    else if c = '\r' then '\\' :: 'r' :: acc
    else c :: acc) []

/-- The JSON name of a change type. -/
def mfTypeName : MFChangeType → Str
  | MFChangeType.create => String.toList "create"
  | MFChangeType.modify => String.toList "modify"
  | MFChangeType.delete => String.toList "delete"

/-- One `"name": "value"` line at the given indent. -/
def jsonStrField (indent name v : Str) : Str :=
  indent ++ '"' :: name ++ '"' :: ':' :: ' ' :: '"' :: jsonEscape v ++ ['"']

/-- Join with a separator. -/
def joinSep (sep : Str) : List Str → Str
  | [] => []
  | [x] => x
  | x :: xs => x ++ sep ++ joinSep sep xs

/-- `JSON.stringify` of one change with two-space indent: the keys in the
insertion order of the object literals built by `parseMultiFileResponse`
(`filePath`, `type`, `content`, `language`; the optional fields are never
set by the parser and `JSON.stringify` omits absent keys). -/
def serializeChange (ch : MultiFileChange) : Str :=
  let ind := String.toList "    "
  String.toList "  \x7b\n" ++
  jsonStrField ind (String.toList "filePath") ch.filePath ++ String.toList ",\n" ++
  jsonStrField ind (String.toList "type") (mfTypeName ch.type) ++
    String.toList ",\n" ++
  jsonStrField ind (String.toList "content") ch.content ++ String.toList ",\n" ++
  jsonStrField ind (String.toList "language") ch.language ++
  String.toList "\n  \x7d"

/-- `OutputParser.serializeMultiFileChanges`:
`JSON.stringify(changes, null, 2)`. -/
def serializeMultiFileChanges (changes : List MultiFileChange) : Str :=
  match changes with
  | [] => String.toList "[]"
  | _ => String.toList "[\n" ++
      joinSep (String.toList ",\n") (changes.map serializeChange) ++
      String.toList "\n]"

/-- The matched length at `t` of the per-change removal pattern of
`extractMultiFileExplanation`
(`(?:File:|Path:)\s*PATH` then two lazy fence spans; the source escapes
the path so it matches verbatim). -/
def mfExplOccurLen (path : Str) (t : Str) : Option ℕ :=
  let tryKw := fun (kw : Str) =>
    if strStarts kw t then
      let r1 := t.drop kw.length
      let ws := r1.takeWhile isWS
      let r2 := r1.drop ws.length
      if strStarts path r2 then
        let r3 := r2.drop path.length
        (takeUntilSeq fence r3).bind (fun p1 =>
          (takeUntilSeq fence p1.2).map (fun p2 =>
            kw.length + ws.length + path.length +
              p1.1.length + 3 + p2.1.length + 3))
      else none
    else none
  (tryKw (String.toList "File:")).orElse (fun _ => tryKw (String.toList "Path:"))

/-- The matched length at `t` of `/\n\s*\n\s*\n/`: a newline whose
following whitespace run holds at least two more newlines; the greedy
match extends to the last newline of the run. -/
def tripleNLLen (t : Str) : Option ℕ :=
  match t with
  | '\n' :: rest =>
    let run := rest.takeWhile isWS
    if 2 ≤ (run.filter (fun c => c = '\n')).length then
      some (1 + (run.length - (run.reverse.takeWhile (fun c => c ≠ '\n')).length))
    else none
  | _ => none

/-- `OutputParser.extractMultiFileExplanation`: remove each change's
header-and-blocks span, collapse runs of blank lines, trim; empty means
`undefined`. -/
def extractMultiFileExplanation (response : Str)
    (changes : List MultiFileChange) : Option Str :=
  let e1 := changes.foldl (fun e ch =>
    replaceMatches (mfExplOccurLen ch.filePath) [] (e.length + 1) e) response
  let e2 := trimStr (replaceMatches tripleNLLen ('\n' :: ['\n'])
    (e1.length + 1) e1)
  if e2.isEmpty then none else some e2

/-- `OutputParser.calculateMultiFileConfidence`: the share of changes with
nonempty trimmed content, times 0.8. -/
def calculateMultiFileConfidence (changes : List MultiFileChange) : ℚ :=
  ((changes.filter (fun ch => !(trimStr ch.content).isEmpty)).length : ℚ) /
    (changes.length : ℚ) * (8/10)

/-- The code-blocks branch of `parseAIResponse` (everything after the
primary block is selected). -/
def parseWithBlocks (trimmed : Str) (codeBlocks : List CodeBlock)
    (primary : CodeBlock) (context : Option Ctx) : ParsedOutput :=
  let alternatives := codeBlocks.filter (fun b => b ≠ primary)
  let explanation := extractSmartExplanation trimmed codeBlocks
  ⟨primary.code, explanation, true,
    (if primary.language.isEmpty then
      (match context with
        | some c => c.originalLanguage
        | none => none)
    else some primary.language),
    calculateResponseConfidence primary explanation context,
    determinePatchType primary explanation context,
    analyzeResponseMetadata trimmed codeBlocks,
    (if alternatives.isEmpty then none
      else some (alternatives.map (fun b =>
        AltBlock.mk b.code b.language b.label b.confidence)))⟩

/-- `OutputParser.parseAIResponse` (line 1845) with
`parseMultiFileResponseData` (line 1908) inlined into its multifile
branch.  When the multifile branch finds no changes, the source re-enters
`parseAIResponse` with `expectMultiFile: false`; since a second such
re-entry means the source recursed on identical arguments (a stack
overflow), the fuel models the recursion and every terminating source
path. -/
def parseAIResponseAux : ℕ → Str → Option Ctx → ParsedOutput
  | 0, response, context => parseCodeOnlyResponse (trimStr response) context
  | Nat.succ n, response, context =>
    let trimmed := trimStr response
    let responseType := detectResponseType trimmed
    let isMultiFile := responseType = RespType.multifile ||
      (match context with
        | some c => c.expectMultiFile
        | none => false)
    if isMultiFile then
      let multiFileChanges := parseMultiFileResponse trimmed
      if multiFileChanges.isEmpty then
        parseAIResponseAux n trimmed (some
          ⟨(match context with | some c => c.originalLanguage | none => none),
            false,
            (match context with | some c => c.instruction | none => none)⟩)
      else
        ⟨serializeMultiFileChanges multiFileChanges,
          extractMultiFileExplanation trimmed multiFileChanges, true,
          some (String.toList "multifile"),
          calculateMultiFileConfidence multiFileChanges,
          PatchKind.multifile,
          ⟨RespType.multifile, multiFileChanges.length, false, true,
            multiFileChanges.any (fun ch => containsImports ch.content)⟩,
          none⟩
    else
      let codeBlocks := extractEnhancedCodeBlocks trimmed
      if codeBlocks.isEmpty then parseCodeOnlyResponse trimmed context
      else
        match selectPrimaryCodeBlock codeBlocks context with
        | none => parseCodeOnlyResponse trimmed context
        | some primary => parseWithBlocks trimmed codeBlocks primary context

/-- `OutputParser.parseAIResponse`. -/
def parseAIResponse (response : Str) (context : Option Ctx) : ParsedOutput :=
  parseAIResponseAux 2 response context

end OutputParser

namespace OutputParser

theorem mem_lineStartSuffixes {t r : Str} (h : t ∈ lineStartSuffixes r) :
    t <:+ r := by
  induction r with
  | nil => simp [lineStartSuffixes] at h
  | cons c cs ih =>
    by_cases hc : c = '\n'
    · rw [lineStartSuffixes, if_pos hc] at h
      rcases List.mem_cons.mp h with h0 | h'
      · rw [h0]; exact List.suffix_cons c cs
      · exact (ih h').trans (List.suffix_cons c cs)
    · rw [lineStartSuffixes, if_neg hc] at h
      exact (ih h).trans (List.suffix_cons c cs)

theorem strStarts_fence_false {X t : Str} (hbt : btick ∉ X) (ht : t <:+ X) :
    strStarts fence t = false := by
  cases t with
  | nil => rfl
  | cons c cs =>
    have hc : ¬ (btick = c) := by
      intro h
      exact hbt (h ▸ ht.subset (by simp))
    simp [fence, strStarts, hc]

theorem hasFencedBlockTest_eq_false {r : Str} (hbt : btick ∉ r) :
    hasFencedBlockTest r = false := by
  unfold hasFencedBlockTest
  by_contra hb
  have hc : containsStr fence r = true := by simpa using hb
  rcases (containsStr_iff _ _).mp hc with ⟨u, v, hr⟩
  exact hbt (by rw [hr]; simp [fence])

theorem fenceSplitCount_eq_one {r : Str} (hbt : btick ∉ r) :
    fenceSplitCount r = 1 := by
  have h : scanAll
      (fun t => if strStarts fence t then some ((), t.drop 3) else none) r = [] :=
    scanAll_of_none (scanFrom_none (fun t ht => by
      simp [strStarts_fence_false hbt ht]))
  unfold fenceSplitCount
  rw [h]
  rfl

theorem extractBlocksAux_nil {X : Str} (hbt : btick ∉ X) (full : Str) :
    ∀ n pos rem, rem <:+ X → extractBlocksAux full n pos rem = [] := by
  intro n
  induction n with
  | zero => intro pos rem _; rfl
  | succ n ih =>
    intro pos rem hrem
    have hm : matchCodeBlockAt rem = none := by
      unfold matchCodeBlockAt
      rw [strStarts_fence_false hbt hrem]
      simp
    cases rem with
    | nil => simp only [extractBlocksAux, hm]
    | cons c cs =>
      simp only [extractBlocksAux, hm]
      exact ih (pos + 1) cs ((List.suffix_cons c cs).trans hrem)

theorem extractEnhancedCodeBlocks_nil {r : Str} (hbt : btick ∉ r) :
    extractEnhancedCodeBlocks r = [] := by
  unfold extractEnhancedCodeBlocks
  rw [extractBlocksAux_nil hbt r (r.length + 1) 0 r (List.suffix_refl r)]
  rfl

theorem fileHeaderHereTest_file_or_path {r t : Str} (ht : t <:+ r)
    (hT : fileHeaderHereTest t = true) :
    containsStr (String.toList "file:") (lowerStr r) = true ∨
      containsStr (String.toList "path:") (lowerStr r) = true := by
  unfold fileHeaderHereTest at hT
  set r1 := (if strStarts (String.toList "##") t then (t.drop 2).dropWhile isWS
    else if strStarts (String.toList "#") t then (t.drop 1).dropWhile isWS
    else t) with hr1
  have hr1suf : r1 <:+ r := by
    rw [hr1]
    split
    · exact ((List.dropWhile_suffix _).trans (List.drop_suffix 2 t)).trans ht
    · split
      · exact ((List.dropWhile_suffix _).trans (List.drop_suffix 1 t)).trans ht
      · exact ht
  by_cases hg : (strStartsCI (String.toList "File:") r1 ||
      strStartsCI (String.toList "Path:") r1) = true
  · rcases Bool.or_eq_true_iff.mp hg with hF | hP
    · left
      have hb' : strStarts (String.toList "file:") (lowerStr r1) = true := by
        have hl : lowerStr (String.toList "File:") = String.toList "file:" := by
          decide
        simpa [strStartsCI, hl] using hF
      exact containsStr_lower_suffix hr1suf hb'
    · right
      have hb' : strStarts (String.toList "path:") (lowerStr r1) = true := by
        have hl : lowerStr (String.toList "Path:") = String.toList "path:" := by
          decide
        simpa [strStartsCI, hl] using hP
      exact containsStr_lower_suffix hr1suf hb'
  · rw [if_neg (by simpa using hg)] at hT
    exact absurd hT (by simp)

theorem hasFileHeaders_eq_false {r : Str}
    (hf : containsStr (String.toList "file:") (lowerStr r) = false)
    (hp : containsStr (String.toList "path:") (lowerStr r) = false) :
    hasFileHeaders r = false := by
  unfold hasFileHeaders
  rw [List.any_eq_false]
  intro t hmem
  intro hT
  have ht : t <:+ r := by
    rcases List.mem_cons.mp hmem with h0 | h'
    · rw [h0]
    · exact mem_lineStartSuffixes h'
  rcases fileHeaderHereTest_file_or_path ht hT with h | h
  · rw [h] at hf; exact absurd hf (by simp)
  · rw [h] at hp; exact absurd hp (by simp)

theorem detectResponseType_prose {r : Str} (hbt : btick ∉ r)
    (hf : containsStr (String.toList "file:") (lowerStr r) = false)
    (hp : containsStr (String.toList "path:") (lowerStr r) = false)
    (hcl : isCodeLike r = false) :
    detectResponseType r = RespType.explanation_only := by
  have h1 := hasFileHeaders_eq_false hf hp
  have h2 := hasFencedBlockTest_eq_false hbt
  have h3 := fenceSplitCount_eq_one hbt
  simp [detectResponseType, h1, h2, h3, hcl]

end OutputParser

namespace OutputParser

/-- C5 (amended).  For every reply whose trimmed text holds no backtick,
no `file:` or `path:` (case-insensitively) and is not code-like, called
without a context, `parseAIResponse` takes the code-only fallback: the
result's `metadata.responseType` is `code_only` — not the claimed
`explanation_only`, which is what `detectResponseType` itself returns for
the same text but `parseCodeOnlyResponse` hardcodes `code_only` — with
`hasCodeBlocks` false, the trimmed reply echoed as `code`, and confidence
exactly 0.6. -/
theorem parseAIResponse_prose (response : Str)
    (hbt : btick ∉ trimStr response)
    (hf : containsStr (String.toList "file:") (lowerStr (trimStr response)) = false)
    (hp : containsStr (String.toList "path:") (lowerStr (trimStr response)) = false)
    (hcl : isCodeLike (trimStr response) = false) :
    (parseAIResponse response none).metadata.responseType = RespType.code_only ∧
    (parseAIResponse response none).hasCodeBlocks = false ∧
    (parseAIResponse response none).code = trimStr response ∧
    (parseAIResponse response none).confidence = 6/10 ∧
    detectResponseType (trimStr response) = RespType.explanation_only := by
  have hdt := detectResponseType_prose hbt hf hp hcl
  have hblocks := extractEnhancedCodeBlocks_nil hbt
  have hout : parseAIResponse response none =
      parseCodeOnlyResponse (trimStr response) none := by
    show parseAIResponseAux (Nat.succ 1) response none = _
    simp only [parseAIResponseAux, hdt, hblocks]
    simp
  have hconf : calculateCodeOnlyConfidence (trimStr response) none = 6/10 := by
    unfold calculateCodeOnlyConfidence
    rw [hcl]
    norm_num
  refine ⟨?_, ?_, ?_, ?_, hdt⟩ <;> rw [hout]
  · rfl
  · rfl
  · rfl
  · show calculateCodeOnlyConfidence (trimStr response) none = 6/10
    exact hconf

end OutputParser

namespace OutputParser

/-- C5 counterexample.  A plain-prose reply — no fence, no code
punctuation — for which `detectResponseType` itself answers
`explanation_only`, yet the `ParsedOutput` that `parseAIResponse` returns
carries `metadata.responseType = 'code_only'`: the code-only fallback
(`parseCodeOnlyResponse`) hardcodes that value. -/
theorem parseAIResponse_prose_counterexample :
    (parseAIResponse (String.toList
        "This explanation describes the approach in plain words and suggests no further work.")
      none).metadata.responseType = RespType.code_only ∧
    detectResponseType (trimStr (String.toList
        "This explanation describes the approach in plain words and suggests no further work."))
      = RespType.explanation_only ∧
    RespType.code_only ≠ RespType.explanation_only := by
  refine ⟨by decide, by decide, by decide⟩

/-- C5 witness: a concrete prose reply satisfying the amended theorem's
provisos. -/
theorem parseAIResponse_prose_witness :
    (parseAIResponse (String.toList
        "The current design reads well and needs no adjustment at this time.")
      none).metadata.responseType = RespType.code_only ∧
    (parseAIResponse (String.toList
        "The current design reads well and needs no adjustment at this time.")
      none).hasCodeBlocks = false ∧
    (parseAIResponse (String.toList
        "The current design reads well and needs no adjustment at this time.")
      none).code = trimStr (String.toList
        "The current design reads well and needs no adjustment at this time.") ∧
    (parseAIResponse (String.toList
        "The current design reads well and needs no adjustment at this time.")
      none).confidence = 6/10 ∧
    detectResponseType (trimStr (String.toList
        "The current design reads well and needs no adjustment at this time."))
      = RespType.explanation_only :=
  parseAIResponse_prose
    (String.toList
      "The current design reads well and needs no adjustment at this time.")
    (by decide) (by decide) (by decide) (by decide)

end OutputParser
